import Mathlib

/-!
Verification of the sequential (single-threaded) behaviour of the bounded
concurrent binary max-heap in `src/rust/heap/src/concurrent_heap.rs`.

The Rust structure `ConcurrentHeap<T>` keeps a boxed slice of `cap` slots
(each an `Item<T>`: `Empty`, `Available(v)` or `InProgress(v, owner)`),
a size counter, and per-slot locks.  In a single-threaded run the locks
never block and each operation runs atomically from the caller's point of
view, so the code is embedded as pure functions on an explicit state.
Panics (assertion failures, `unreachable!`, out-of-bounds indexing,
`unwrap` on `None`) are modelled as `none`; blocking (push on a full heap,
pop on an empty heap) is also `none` and is excluded by the preconditions
of the theorems.  Element values are specialised to `Nat` (the Rust code
only requires `T : Ord`), and thread identities to `Nat`.
-/

/-- Slot states, mirroring `enum Item<T> { Empty, Available(T), InProgress(T, ThreadId) }`. -/
inductive Item : Type where
  | Empty : Item
  | Available : Nat → Item
  | InProgress : Nat → Nat → Item
deriving DecidableEq

/-- `Item::make_available`: `InProgress(v, _)` becomes `Available(v)`;
any other state hits `unreachable!()`, modelled as `none`. -/
def Item.make_available : Item → Option Item
  | Item.InProgress v _ => some (Item.Available v)
  | _ => none

/-- `Item::take_val`: an `Available(v)` or `InProgress(v, _)` slot is replaced by
`Empty` and yields `v`; on `Empty` the code hits `unreachable!()` (`none` here).
The returned pair is (value, state the slot is left in). -/
def Item.take_val : Item → Option (Nat × Item)
  | Item.Available v => some (v, Item.Empty)
  | Item.InProgress v _ => some (v, Item.Empty)
  | Item.Empty => none

/-- `Item::get_val`: the held value, if any. -/
def Item.get_val : Item → Option Nat
  | Item.Available v => some v
  | Item.InProgress v _ => some v
  | Item.Empty => none

/-- The heap state: capacity, the slot array, and the size register. -/
structure Heap : Type where
  cap : Nat
  data : List Item
  size : Nat
deriving DecidableEq

/-- `ConcurrentHeap::new(cap)`: `cap` `Empty` slots and size 0; panics on `cap == 0`. -/
def Heap.new (cap : Nat) : Option Heap :=
  if cap = 0 then none
  else some ⟨cap, List.replicate cap Item.Empty, 0⟩

/-- `ConcurrentHeap::parent`: `0` for `0`, `i/2 - 1` for even `i`, `i/2` for odd `i`. -/
def parent (i : Nat) : Nat :=
  if i = 0 then 0
  else if i % 2 = 0 then i / 2 - 1
  else i / 2

/-- The tail of `push`'s sift-up loop once `pos` has reached the root:
`if let InProgress(_, tid) = parent_slot { if tid == my_id { make_available } }`. -/
def siftUpFinish (myId : Nat) (data : List Item) : Option (List Item) :=
  match data[0]? with
  | some (Item.InProgress v tid) =>
      if tid = myId then some (data.set 0 (Item.Available v)) else some data
  | some _ => some data
  | none => none

/-- The sift-up loop of `push` (lines 118-145 of the source), fuel-indexed.
Each loop iteration consumes one unit of fuel; exhausted fuel is `none`
(in a single-threaded run the spin branch never fires and fuel `pos`
suffices, which the theorems below prove).  The branch structure follows
the Rust `match (&*my_slot, &*parent_slot)` exactly, including the guard
`tid == my_id` on the second and third arms and the catch-all that walks
upward. -/
def siftUp (myId : Nat) : Nat → Nat → List Item → Option (List Item)
  | 0, _, _ => none
  | fuel + 1, pos, data =>
    let parentPos := parent pos
    match data[parentPos]?, data[pos]? with
    | some parentSlot, some mySlot =>
      match mySlot, parentSlot with
      | _, Item.Empty => some data
      | Item.InProgress v tid, Item.Available pv =>
        if tid = myId then
          if pv < v then
            let data2 := (data.set pos parentSlot).set parentPos mySlot
            if 0 < parentPos then siftUp myId fuel parentPos data2
            else siftUpFinish myId data2
          else
            some (data.set pos (Item.Available v))
        else
          if 0 < parentPos then siftUp myId fuel parentPos data
          else siftUpFinish myId data
      | Item.InProgress _ tid, Item.InProgress _ _ =>
        if tid = myId then siftUp myId fuel pos data
        else
          if 0 < parentPos then siftUp myId fuel parentPos data
          else siftUpFinish myId data
      | _, _ =>
        if 0 < parentPos then siftUp myId fuel parentPos data
        else siftUpFinish myId data
    | _, _ => none

/-- `ConcurrentHeap::push` (single-threaded).  A full heap blocks in the
source; that case is `none` here and excluded by the preconditions.
`pos := size`, the reserved slot must be `Empty` (assertion), value placed
directly at the root or as `InProgress` followed by sift-up. -/
def Heap.push (myId : Nat) (h : Heap) (val : Nat) : Option Heap :=
  if h.size = h.cap then none
  else
    let pos := h.size
    match h.data[pos]? with
    | none => none
    | some slot =>
      match slot with
      | Item.Empty =>
        if pos = 0 then
          some ⟨h.cap, h.data.set 0 (Item.Available val), h.size + 1⟩
        else
          match siftUp myId pos pos (h.data.set pos (Item.InProgress val myId)) with
          | some data2 => some ⟨h.cap, data2, h.size + 1⟩
          | none => none
      | _ => none

/-- The right-child inspection and child selection of `pop`'s sift-down
(lines 185-199 of the source).  `rightSlot = none` encodes `right >= cap`
(the right child is not examined).  Returns `none` for the `break` taken
when the left child is `Empty` while the right child was examined, else
the chosen child index and its slot: the right child is chosen exactly
when both children hold values and `rv > lv`. -/
def pickChild (left : Nat) (leftSlot : Item) (rightSlot : Option Item) :
    Option (Nat × Item) :=
  match rightSlot with
  | some rs =>
    match leftSlot.get_val, rs.get_val with
    | none, _ => none
    | some lv, some rv =>
        if lv < rv then some (left + 1, rs) else some (left, leftSlot)
    | some _, none => some (left, leftSlot)
  | none => some (left, leftSlot)

/-- The sift-down loop of `pop` (lines 180-210 of the source), fuel-indexed
(one unit per iteration; `cap` always suffices since `curr` strictly
increases).  The loop runs while `2*curr+1 < cap`; the chosen child is
swapped with the current slot exactly when its value is strictly greater. -/
def siftDown (cap : Nat) : Nat → Nat → List Item → Option (List Item)
  | 0, _, _ => none
  | fuel + 1, curr, data =>
    if 2 * curr + 1 < cap then
      let left := 2 * curr + 1
      match data[left]? with
      | none => none
      | some leftSlot =>
        let step : Option Item → Option (List Item) := fun rightSlot =>
          match pickChild left leftSlot rightSlot with
          | none => some data
          | some (ci, childSlot) =>
            match childSlot.get_val with
            | none => some data
            | some cv =>
              match data[curr]? with
              | none => none
              | some currSlot =>
                match currSlot.get_val with
                | none => none
                | some curv =>
                  if curv < cv then
                    siftDown cap fuel ci ((data.set curr childSlot).set ci currSlot)
                  else
                    some data
        if left + 1 < cap then
          match data[left + 1]? with
          | none => none
          | some rs => step (some rs)
        else step none
    else some data

/-- `ConcurrentHeap::pop` (single-threaded).  An empty heap blocks in the
source; that case is `none` here.  The size register is decremented, the
root value taken (`take_val`), the bottom slot swapped to the root when
`bottom > 0`, then sift-down runs. -/
def Heap.pop (h : Heap) : Option (Nat × Heap) :=
  if h.size = 0 then none
  else
    let bottom := h.size - 1
    match h.data[0]? with
    | none => none
    | some slot0 =>
      match slot0.take_val with
      | none => none
      | some (v, emptied) =>
        if bottom = 0 then some (v, ⟨h.cap, h.data.set 0 emptied, bottom⟩)
        else
          match h.data[bottom]? with
          | none => none
          | some bottomSlot =>
            let data1 := (h.data.set 0 bottomSlot).set bottom emptied
            match siftDown h.cap h.cap 0 data1 with
            | some data2 => some (v, ⟨h.cap, data2, bottom⟩)
            | none => none

/-- `ConcurrentHeap::len`: the size register. -/
def Heap.len (h : Heap) : Nat := h.size

/-! ## Arithmetic facts about the index scheme -/

theorem parent_eq_sub_div (i : Nat) (hi : 0 < i) : parent i = (i - 1) / 2 := by
  unfold parent
  rw [if_neg (by omega)]
  split <;> omega

theorem parent_lt (i : Nat) (hi : 0 < i) : parent i < i := by
  rw [parent_eq_sub_div i hi]; omega

theorem parent_left (c : Nat) : parent (2 * c + 1) = c := by
  rw [parent_eq_sub_div _ (by omega)]; omega

theorem parent_right (c : Nat) : parent (2 * c + 2) = c := by
  rw [parent_eq_sub_div _ (by omega)]; omega

theorem child_of_parent (i : Nat) (hi : 0 < i) :
    i = 2 * parent i + 1 ∨ i = 2 * parent i + 2 := by
  rw [parent_eq_sub_div i hi]; omega

/-! ## List-level swap -/

/-- Swap the entries at indices `i` and `j` (mirrors `std::mem::swap` on two slots). -/
def swapL (l : List Nat) (i j : Nat) : List Nat :=
  (l.set i (l.getD j 0)).set j (l.getD i 0)

theorem cons_set_perm (t : List Nat) (d : Nat) (a : Nat) (hd : d < t.length) :
    List.Perm (t.getD d 0 :: t.set d a) (a :: t) := by
  induction t generalizing d with
  | nil => simp at hd
  | cons b t2 ih =>
    cases d with
    | zero => simpa using List.Perm.swap a b t2
    | succ d2 =>
      have hd2 : d2 < t2.length := by simpa using hd
      have step1 : List.Perm ((b :: t2).getD (d2 + 1) 0 :: (b :: t2).set (d2 + 1) a)
          (b :: (t2.getD d2 0 :: t2.set d2 a)) := by
        simp only [List.getD_cons_succ, List.set_cons_succ]
        exact List.Perm.swap _ _ _
      exact step1.trans ((List.Perm.cons b (ih d2 hd2)).trans (List.Perm.swap _ _ _))

theorem swapL_perm (l : List Nat) (i j : Nat) (hij : i < j) (hj : j < l.length) :
    List.Perm (swapL l i j) l := by
  induction l generalizing i j with
  | nil => simp at hj
  | cons a t ih =>
    cases i with
    | zero =>
      obtain ⟨d, rfl⟩ : ∃ d, j = d + 1 := ⟨j - 1, by omega⟩
      have hd : d < t.length := by simpa using hj
      simp only [swapL, List.getD_cons_succ, List.set_cons_zero, List.set_cons_succ,
        List.getD_cons_zero]
      exact cons_set_perm t d a hd
    | succ i2 =>
      obtain ⟨d, rfl⟩ : ∃ d, j = d + 1 := ⟨j - 1, by omega⟩
      have heq : swapL (a :: t) (i2 + 1) (d + 1) = a :: swapL t i2 d := by
        simp [swapL]
      rw [heq]
      exact List.Perm.cons a (ih i2 d (by omega) (by simpa using hj))

theorem length_swapL (l : List Nat) (i j : Nat) : (swapL l i j).length = l.length := by
  simp [swapL]

theorem getD_swapL (l : List Nat) (i j k : Nat) (hij : i < j) (hj : j < l.length) :
    (swapL l i j).getD k 0 =
      if k = i then l.getD j 0 else if k = j then l.getD i 0 else l.getD k 0 := by
  have hi : i < l.length := by omega
  simp only [swapL, List.getD_eq_getElem?_getD, List.getElem?_set, List.length_set]
  by_cases hki : k = i <;> by_cases hkj : k = j
  · omega
  · subst hki
    rw [if_neg (by omega), if_pos rfl, if_pos hi, if_pos rfl]
    simp [List.getElem?_eq_getElem hj]
  · subst hkj
    rw [if_pos rfl, if_pos hj, if_neg hki, if_pos rfl]
    simp [List.getElem?_eq_getElem hi]
  · rw [if_neg (by omega), if_neg (by omega), if_neg hki, if_neg hkj]

/-! ## The at-rest abstraction: a `List Nat` of the occupied prefix -/

/-- The slot array denoted by the occupied prefix `l` in a heap of capacity `cap`:
`Available` on the prefix, `Empty` on the rest. -/
def avail (l : List Nat) (cap : Nat) : List Item :=
  l.map Item.Available ++ List.replicate (cap - l.length) Item.Empty

theorem avail_length (l : List Nat) (cap : Nat) (hl : l.length ≤ cap) :
    (avail l cap).length = cap := by
  simp [avail]; omega

theorem avail_getElem?_lt (l : List Nat) (cap : Nat) (i : Nat) (hi : i < l.length) :
    (avail l cap)[i]? = some (Item.Available (l.getD i 0)) := by
  rw [avail, List.getElem?_append, if_pos (by simpa using hi), List.getElem?_map,
    List.getElem?_eq_getElem hi]
  simp [List.getD_eq_getElem?_getD, List.getElem?_eq_getElem hi]

theorem avail_getElem?_ge (l : List Nat) (cap : Nat) (i : Nat)
    (hi : l.length ≤ i) (hc : i < cap) :
    (avail l cap)[i]? = some Item.Empty := by
  rw [avail, List.getElem?_append_right (by simpa using hi)]
  simp only [List.length_map, List.getElem?_replicate]
  rw [if_pos (by omega)]

theorem avail_getElem?_ge_cap (l : List Nat) (cap : Nat) (i : Nat)
    (hl : l.length ≤ cap) (hi : cap ≤ i) :
    (avail l cap)[i]? = none := by
  rw [List.getElem?_eq_none]
  rw [avail_length l cap hl]; exact hi

/-! ## Functional sift-up / sift-down on the occupied prefix -/

/-- Sift-up on the occupied prefix: the single-threaded effect of `push`'s
sift-up loop on the values (swap with the parent while strictly greater). -/
def siftUpL (l : List Nat) (p : Nat) : List Nat :=
  if _hp : p = 0 then l
  else
    if l.getD (parent p) 0 < l.getD p 0 then siftUpL (swapL l (parent p) p) (parent p)
    else l
termination_by p
decreasing_by exact parent_lt p (Nat.pos_of_ne_zero _hp)

/-- Sift-down on the occupied prefix: the single-threaded effect of `pop`'s
sift-down loop on the values (swap with the strictly larger of the children,
preferring the left on ties, while the child is strictly greater). -/
def siftDownL (l : List Nat) (c : Nat) : List Nat :=
  if h1 : 2 * c + 1 < l.length then
    if h2 : 2 * c + 2 < l.length ∧ l.getD (2 * c + 1) 0 < l.getD (2 * c + 2) 0 then
      if l.getD c 0 < l.getD (2 * c + 2) 0 then siftDownL (swapL l c (2 * c + 2)) (2 * c + 2)
      else l
    else
      if l.getD c 0 < l.getD (2 * c + 1) 0 then siftDownL (swapL l c (2 * c + 1)) (2 * c + 1)
      else l
  else l
termination_by l.length - c
decreasing_by
  · rw [length_swapL]; omega
  · rw [length_swapL]; omega

/-- The max-heap ordering of the occupied prefix: every entry is at most its parent. -/
def isHeap (l : List Nat) : Prop :=
  ∀ i, 0 < i → i < l.length → l.getD i 0 ≤ l.getD (parent i) 0

/-- The sift-up loop invariant: heap-ordered except the edge into `p`, and the
children of `p` are dominated by `p`'s parent. -/
def upInv (l : List Nat) (p : Nat) : Prop :=
  (∀ i, 0 < i → i < l.length → i ≠ p → l.getD i 0 ≤ l.getD (parent i) 0) ∧
  (∀ i, i < l.length → parent i = p → i ≠ p → 0 < p → l.getD i 0 ≤ l.getD (parent p) 0)

/-- The sift-down loop invariant: heap-ordered except the edges out of `c`, and the
children of `c` are dominated by `c`'s parent. -/
def downInv (l : List Nat) (c : Nat) : Prop :=
  (∀ i, 0 < i → i < l.length → parent i ≠ c → l.getD i 0 ≤ l.getD (parent i) 0) ∧
  (∀ i, i < l.length → parent i = c → i ≠ c → 0 < c → l.getD i 0 ≤ l.getD (parent c) 0)

theorem isHeap_of_upInv_zero (l : List Nat) (h : upInv l 0) : isHeap l :=
  fun i hi hil => h.1 i hi hil (by omega)


theorem upInv_swap (l : List Nat) (p : Nat) (hp0 : 0 < p) (hp : p < l.length)
    (h : upInv l p) (hlt : l.getD (parent p) 0 < l.getD p 0) :
    upInv (swapL l (parent p) p) (parent p) := by
  have hpp : parent p < p := parent_lt p hp0
  have hget := fun k => getD_swapL l (parent p) p k hpp hp
  constructor
  · intro i hi hil hine
    rw [length_swapL] at hil
    by_cases hip : i = p
    · have e1 : (swapL l (parent p) p).getD i 0 = l.getD (parent p) 0 := by
        rw [hget i, if_neg (by omega), if_pos hip]
      have e2 : (swapL l (parent p) p).getD (parent i) 0 = l.getD p 0 := by
        rw [hget (parent i), if_pos (by rw [hip])]
      rw [e1, e2]
      exact hlt.le
    · have e1 : (swapL l (parent p) p).getD i 0 = l.getD i 0 := by
        rw [hget i, if_neg hine, if_neg hip]
      by_cases h1 : parent i = parent p
      · have e2 : (swapL l (parent p) p).getD (parent i) 0 = l.getD p 0 := by
          rw [hget (parent i), if_pos h1]
        rw [e1, e2]
        have h3 := h.1 i hi hil hip
        rw [h1] at h3
        exact h3.trans hlt.le
      · by_cases h2 : parent i = p
        · have e2 : (swapL l (parent p) p).getD (parent i) 0 = l.getD (parent p) 0 := by
            rw [hget (parent i), if_neg h1, if_pos h2]
          rw [e1, e2]
          exact h.2 i hil h2 hip hp0
        · have e2 : (swapL l (parent p) p).getD (parent i) 0 = l.getD (parent i) 0 := by
            rw [hget (parent i), if_neg h1, if_neg h2]
          rw [e1, e2]
          exact h.1 i hi hil hip
  · intro i hil hpi hine hpp0
    rw [length_swapL] at hil
    have hi0 : 0 < i := by
      by_contra h0
      have hz : i = 0 := by omega
      rw [hz] at hpi
      have hpz : parent 0 = 0 := by simp [parent]
      omega
    have hgp : parent (parent p) < parent p := parent_lt _ hpp0
    have e2 : (swapL l (parent p) p).getD (parent (parent p)) 0
        = l.getD (parent (parent p)) 0 := by
      rw [hget _, if_neg (by omega), if_neg (by omega)]
    by_cases hip : i = p
    · have e1 : (swapL l (parent p) p).getD i 0 = l.getD (parent p) 0 := by
        rw [hget i, if_neg (by omega), if_pos hip]
      rw [e1, e2]
      exact h.1 (parent p) hpp0 (by omega) (by omega)
    · have e1 : (swapL l (parent p) p).getD i 0 = l.getD i 0 := by
        rw [hget i, if_neg hine, if_neg hip]
      rw [e1, e2]
      have h3 := h.1 i hi0 hil hip
      rw [hpi] at h3
      exact h3.trans (h.1 (parent p) hpp0 (by omega) (by omega))

theorem siftUpL_heap (p : Nat) (l : List Nat) (hp : p < l.length) (h : upInv l p) :
    isHeap (siftUpL l p) := by
  induction p using Nat.strong_induction_on generalizing l with
  | _ p ih =>
    rw [siftUpL]
    split
    · next hp0 =>
      subst hp0
      exact isHeap_of_upInv_zero l h
    · next hp0 =>
      have hp0' : 0 < p := Nat.pos_of_ne_zero hp0
      split
      · next hlt =>
        exact ih (parent p) (parent_lt p hp0') (swapL l (parent p) p)
          (by rw [length_swapL]; exact lt_trans (parent_lt p hp0') hp)
          (upInv_swap l p hp0' hp h hlt)
      · next hlt =>
        intro i hi hil
        by_cases hip : i = p
        · rw [hip]
          exact Nat.le_of_not_lt hlt
        · exact h.1 i hi hil hip

theorem siftUpL_perm (p : Nat) (l : List Nat) (hp : p < l.length) :
    List.Perm (siftUpL l p) l := by
  induction p using Nat.strong_induction_on generalizing l with
  | _ p ih =>
    rw [siftUpL]
    split
    · exact List.Perm.refl l
    · next hp0 =>
      have hp0' : 0 < p := Nat.pos_of_ne_zero hp0
      split
      · next hlt =>
        exact (ih (parent p) (parent_lt p hp0') (swapL l (parent p) p)
          (by rw [length_swapL]; exact lt_trans (parent_lt p hp0') hp)).trans
          (swapL_perm l (parent p) p (parent_lt p hp0') hp)
      · exact List.Perm.refl l

theorem siftUpL_length (p : Nat) (l : List Nat) (hp : p < l.length) :
    (siftUpL l p).length = l.length :=
  (siftUpL_perm p l hp).length_eq

theorem parent_le (i : Nat) : parent i ≤ i := by
  rcases Nat.eq_zero_or_pos i with rfl | h
  · simp [parent]
  · exact (parent_lt i h).le

theorem downInv_swap (l : List Nat) (c ci : Nat)
    (hpci : parent ci = c) (hcic : c < ci) (hcil : ci < l.length)
    (hsib : ∀ s, s < l.length → parent s = c → s ≠ c → l.getD s 0 ≤ l.getD ci 0)
    (hlt : l.getD c 0 < l.getD ci 0) (h : downInv l c) :
    downInv (swapL l c ci) ci := by
  have hget := fun k => getD_swapL l c ci k hcic hcil
  constructor
  · intro i hi hil hpi
    rw [length_swapL] at hil
    by_cases hic : i = c
    · rw [hic]
      have hc0 : 0 < c := by omega
      have hpc : parent c < c := parent_lt c hc0
      have e1 : (swapL l c ci).getD c 0 = l.getD ci 0 := by
        rw [hget c, if_pos rfl]
      have e2 : (swapL l c ci).getD (parent c) 0 = l.getD (parent c) 0 := by
        rw [hget (parent c), if_neg (by omega), if_neg (by omega)]
      rw [e1, e2]
      exact h.2 ci hcil hpci (by omega) hc0
    · by_cases hici : i = ci
      · rw [hici]
        have e1 : (swapL l c ci).getD ci 0 = l.getD c 0 := by
          rw [hget ci, if_neg (by omega), if_pos rfl]
        have e2 : (swapL l c ci).getD (parent ci) 0 = l.getD ci 0 := by
          rw [hpci, hget c, if_pos rfl]
        rw [e1, e2]
        exact hlt.le
      · have e1 : (swapL l c ci).getD i 0 = l.getD i 0 := by
          rw [hget i, if_neg hic, if_neg hici]
        by_cases hpc2 : parent i = c
        · have e2 : (swapL l c ci).getD (parent i) 0 = l.getD ci 0 := by
            rw [hget (parent i), if_pos hpc2]
          rw [e1, e2]
          exact hsib i hil hpc2 hic
        · have e2 : (swapL l c ci).getD (parent i) 0 = l.getD (parent i) 0 := by
            rw [hget (parent i), if_neg hpc2, if_neg hpi]
          rw [e1, e2]
          exact h.1 i hi hil hpc2
  · intro i hil hpi hine hci0
    rw [length_swapL] at hil
    have hple := parent_le i
    have hi0 : 0 < i := by
      by_contra h0
      have hz : i = 0 := by omega
      rw [hz] at hpi
      have hpz : parent 0 = 0 := by simp [parent]
      omega
    have hinec : i ≠ c := by
      intro hcon
      rw [hcon] at hpi
      have := parent_le c
      omega
    have e1 : (swapL l c ci).getD i 0 = l.getD i 0 := by
      rw [hget i, if_neg hinec, if_neg hine]
    have e2 : (swapL l c ci).getD (parent ci) 0 = l.getD ci 0 := by
      rw [hpci, hget c, if_pos rfl]
    rw [e1, e2]
    have h3 := h.1 i hi0 hil (by omega)
    rw [hpi] at h3
    exact h3

theorem pos_of_parent_ne (i c : Nat) (hpi : parent i = c) (hine : i ≠ c) : 0 < i := by
  by_contra h0
  have hz : i = 0 := by omega
  rw [hz] at hpi hine
  have hpz : parent 0 = 0 := by simp [parent]
  omega

theorem isHeap_of_downInv_stop (l : List Nat) (c : Nat) (h : downInv l c)
    (hstop : ∀ i, i < l.length → parent i = c → i ≠ c → l.getD i 0 ≤ l.getD c 0) :
    isHeap l := by
  intro i hi hil
  by_cases hp : parent i = c
  · rw [hp]
    refine hstop i hil hp ?_
    intro hic
    rw [hic] at hp
    have := parent_lt c (by omega)
    omega
  · exact h.1 i hi hil hp

theorem siftDownL_heap_aux (n : Nat) : ∀ (l : List Nat) (c : Nat), l.length - c ≤ n →
    downInv l c → isHeap (siftDownL l c) := by
  induction n with
  | zero =>
    intro l c hn h
    rw [siftDownL, dif_neg (by omega)]
    refine isHeap_of_downInv_stop l c h ?_
    intro i hil hpi hine
    have hi0 : 0 < i := pos_of_parent_ne i c hpi hine
    rcases child_of_parent i hi0 with hc | hc <;> rw [hpi] at hc <;> omega
  | succ n ih =>
    intro l c hn h
    rw [siftDownL]
    split
    · next h1 =>
      split
      · next h2 =>
        split
        · next hlt =>
          refine ih (swapL l c (2 * c + 2)) (2 * c + 2)
            (by rw [length_swapL]; omega)
            (downInv_swap l c (2 * c + 2) (parent_right c) (by omega) h2.1 ?_ hlt h)
          intro s hs hps hsne
          have hs0 : 0 < s := pos_of_parent_ne s c hps hsne
          rcases child_of_parent s hs0 with hc | hc <;> rw [hps] at hc
          · rw [hc]
            exact h2.2.le
          · rw [hc]
        · next hlt =>
          refine isHeap_of_downInv_stop l c h ?_
          intro i hil hpi hine
          have hi0 : 0 < i := pos_of_parent_ne i c hpi hine
          rcases child_of_parent i hi0 with hc | hc <;> rw [hpi] at hc <;> rw [hc]
          · exact h2.2.le.trans (Nat.le_of_not_lt hlt)
          · exact Nat.le_of_not_lt hlt
      · next h2 =>
        split
        · next hlt =>
          refine ih (swapL l c (2 * c + 1)) (2 * c + 1)
            (by rw [length_swapL]; omega)
            (downInv_swap l c (2 * c + 1) (parent_left c) (by omega) h1 ?_ hlt h)
          intro s hs hps hsne
          have hs0 : 0 < s := pos_of_parent_ne s c hps hsne
          rcases child_of_parent s hs0 with hc | hc <;> rw [hps] at hc
          · rw [hc]
          · rw [hc] at hs
            rw [hc]
            have hnlt : ¬ l.getD (2 * c + 1) 0 < l.getD (2 * c + 2) 0 :=
              fun hcon => h2 ⟨hs, hcon⟩
            exact Nat.le_of_not_lt hnlt
        · next hlt =>
          refine isHeap_of_downInv_stop l c h ?_
          intro i hil hpi hine
          have hi0 : 0 < i := pos_of_parent_ne i c hpi hine
          rcases child_of_parent i hi0 with hc | hc <;> rw [hpi] at hc <;> rw [hc]
          · exact Nat.le_of_not_lt hlt
          · rw [hc] at hil
            have hnlt : ¬ l.getD (2 * c + 1) 0 < l.getD (2 * c + 2) 0 :=
              fun hcon => h2 ⟨hil, hcon⟩
            exact (Nat.le_of_not_lt hnlt).trans (Nat.le_of_not_lt hlt)
    · next h1 =>
      refine isHeap_of_downInv_stop l c h ?_
      intro i hil hpi hine
      have hi0 : 0 < i := pos_of_parent_ne i c hpi hine
      rcases child_of_parent i hi0 with hc | hc <;> rw [hpi] at hc <;> omega

theorem siftDownL_heap (l : List Nat) (c : Nat) (h : downInv l c) :
    isHeap (siftDownL l c) :=
  siftDownL_heap_aux l.length l c (by omega) h

theorem siftDownL_perm_aux (n : Nat) : ∀ (l : List Nat) (c : Nat), l.length - c ≤ n →
    List.Perm (siftDownL l c) l := by
  induction n with
  | zero =>
    intro l c hn
    rw [siftDownL, dif_neg (by omega)]
  | succ n ih =>
    intro l c hn
    rw [siftDownL]
    split
    · next h1 =>
      split
      · next h2 =>
        split
        · next hlt =>
          exact (ih (swapL l c (2 * c + 2)) (2 * c + 2)
            (by rw [length_swapL]; omega)).trans
            (swapL_perm l c (2 * c + 2) (by omega) h2.1)
        · exact List.Perm.refl l
      · next h2 =>
        split
        · next hlt =>
          exact (ih (swapL l c (2 * c + 1)) (2 * c + 1)
            (by rw [length_swapL]; omega)).trans
            (swapL_perm l c (2 * c + 1) (by omega) h1)
        · exact List.Perm.refl l
    · exact List.Perm.refl l

theorem siftDownL_perm (l : List Nat) (c : Nat) : List.Perm (siftDownL l c) l :=
  siftDownL_perm_aux l.length l c (by omega)

theorem siftDownL_length (l : List Nat) (c : Nat) :
    (siftDownL l c).length = l.length :=
  (siftDownL_perm l c).length_eq

theorem isHeap_root_max (l : List Nat) (h : isHeap l) :
    ∀ i, i < l.length → l.getD i 0 ≤ l.getD 0 0 := by
  intro i
  induction i using Nat.strong_induction_on with
  | _ i ih =>
    intro hil
    rcases Nat.eq_zero_or_pos i with rfl | hi
    · exact le_refl _
    · exact (h i hi hil).trans
        (ih (parent i) (parent_lt i hi) (lt_trans (parent_lt i hi) hil))

/-! ## Simulation: the Item-level sift-up against the functional one -/

/-- The slot array during a single-threaded sift-up: the occupied prefix `l`
with the in-flight element (at position `p`) marked `InProgress`. -/
def upState (l : List Nat) (p myId cap : Nat) : List Item :=
  (avail l cap).set p (Item.InProgress (l.getD p 0) myId)

theorem upState_length (l : List Nat) (p myId cap : Nat) (hl : l.length ≤ cap) :
    (upState l p myId cap).length = cap := by
  unfold upState
  rw [List.length_set, avail_length l cap hl]

theorem upState_getElem? (l : List Nat) (p myId cap k : Nat)
    (hp : p < l.length) (hl : l.length ≤ cap) :
    (upState l p myId cap)[k]? =
      if p = k then some (Item.InProgress (l.getD p 0) myId)
      else (avail l cap)[k]? := by
  unfold upState
  rw [List.getElem?_set]
  by_cases hk : p = k
  · rw [if_pos hk, if_pos (by rw [avail_length l cap hl]; omega), if_pos hk]
  · rw [if_neg hk, if_neg hk]

theorem upState_set_avail (l : List Nat) (p myId cap : Nat)
    (hp : p < l.length) (hl : l.length ≤ cap) :
    (upState l p myId cap).set p (Item.Available (l.getD p 0)) = avail l cap := by
  apply List.ext_getElem?
  intro k
  rw [List.getElem?_set]
  by_cases hk : p = k
  · rw [if_pos hk, if_pos (by rw [upState_length l p myId cap hl]; omega),
      ← hk, avail_getElem?_lt l cap p hp]
  · rw [if_neg hk, upState_getElem? l p myId cap k hp hl, if_neg hk]

theorem upState_swap_eq (l : List Nat) (p myId cap : Nat)
    (hp0 : 0 < p) (hp : p < l.length) (hl : l.length ≤ cap) :
    ((upState l p myId cap).set p (Item.Available (l.getD (parent p) 0))).set (parent p)
        (Item.InProgress (l.getD p 0) myId)
      = upState (swapL l (parent p) p) (parent p) myId cap := by
  have hpp : parent p < p := parent_lt p hp0
  have hswlen : (swapL l (parent p) p).length = l.length := length_swapL l (parent p) p
  have hget := fun k => getD_swapL l (parent p) p k hpp hp
  have hulen : (upState l p myId cap).length = cap := upState_length l p myId cap hl
  apply List.ext_getElem?
  intro k
  rw [upState_getElem? (swapL l (parent p) p) (parent p) myId cap k
    (by omega) (by omega)]
  rw [List.getElem?_set, List.getElem?_set]
  by_cases hk1 : parent p = k
  · rw [if_pos hk1, if_pos (by rw [List.length_set, hulen]; omega), if_pos hk1]
    rw [hget (parent p), if_pos rfl]
  · rw [if_neg hk1, if_neg hk1]
    by_cases hk2 : p = k
    · rw [if_pos hk2, if_pos (by rw [hulen]; omega)]
      rw [← hk2, avail_getElem?_lt (swapL l (parent p) p) cap p (by omega)]
      rw [hget p, if_neg (by omega), if_pos rfl]
    · rw [if_neg hk2, upState_getElem? l p myId cap k hp hl, if_neg hk2]
      by_cases hk3 : k < l.length
      · rw [avail_getElem?_lt l cap k hk3, avail_getElem?_lt (swapL l (parent p) p) cap k
          (by omega)]
        rw [hget k, if_neg (fun hc => hk1 hc.symm), if_neg (fun hc => hk2 hc.symm)]
      · by_cases hk4 : k < cap
        · rw [avail_getElem?_ge l cap k (by omega) hk4,
            avail_getElem?_ge (swapL l (parent p) p) cap k (by omega) hk4]
        · rw [avail_getElem?_ge_cap l cap k hl (by omega),
            avail_getElem?_ge_cap (swapL l (parent p) p) cap k (by omega) (by omega)]

theorem siftUp_sim (myId cap : Nat) : ∀ (p : Nat) (l : List Nat) (fuel : Nat),
    0 < p → p < l.length → l.length ≤ cap → p ≤ fuel →
    siftUp myId fuel p (upState l p myId cap) = some (avail (siftUpL l p) cap) := by
  intro p
  induction p using Nat.strong_induction_on with
  | _ p ih =>
    intro l fuel hp0 hp hl hfuel
    obtain ⟨f, rfl⟩ : ∃ f, fuel = f + 1 := ⟨fuel - 1, by omega⟩
    have hpp : parent p < p := parent_lt p hp0
    have e1 : (upState l p myId cap)[parent p]? =
        some (Item.Available (l.getD (parent p) 0)) := by
      rw [upState_getElem? l p myId cap (parent p) hp hl, if_neg (by omega),
        avail_getElem?_lt l cap (parent p) (by omega)]
    have e2 : (upState l p myId cap)[p]? =
        some (Item.InProgress (l.getD p 0) myId) := by
      rw [upState_getElem? l p myId cap p hp hl, if_pos rfl]
    simp only [siftUp, e1, e2, if_pos rfl, if_true]
    by_cases hlt : l.getD (parent p) 0 < l.getD p 0
    · rw [if_pos hlt]
      rw [upState_swap_eq l p myId cap hp0 hp hl]
      conv_rhs => rw [siftUpL, dif_neg (by omega : ¬ p = 0), if_pos hlt]
      by_cases hpz : 0 < parent p
      · rw [if_pos hpz]
        exact ih (parent p) hpp (swapL l (parent p) p) f hpz
          (by rw [length_swapL]; omega) (by rw [length_swapL]; omega) (by omega)
      · rw [if_neg hpz]
        have hppz : parent p = 0 := by omega
        rw [hppz]
        have hswlen : (swapL l 0 p).length = l.length := length_swapL l 0 p
        have e3 : (upState (swapL l 0 p) 0 myId cap)[0]? =
            some (Item.InProgress ((swapL l 0 p).getD 0 0) myId) := by
          rw [upState_getElem? (swapL l 0 p) 0 myId cap 0 (by omega) (by omega), if_pos rfl]
        unfold siftUpFinish
        rw [e3]
        simp only [if_pos rfl, if_true]
        rw [upState_set_avail (swapL l 0 p) 0 myId cap (by omega) (by omega)]
        rw [siftUpL, dif_pos rfl]
    · rw [if_neg hlt]
      rw [upState_set_avail l p myId cap hp hl]
      conv_rhs => rw [siftUpL, dif_neg (by omega : ¬ p = 0), if_neg hlt]

/-! ## Simulation: the Item-level sift-down against the functional one -/

theorem avail_swap_eq (l : List Nat) (cap c ci : Nat) (hcic : c < ci)
    (hcil : ci < l.length) (hl : l.length ≤ cap) :
    ((avail l cap).set c (Item.Available (l.getD ci 0))).set ci (Item.Available (l.getD c 0))
      = avail (swapL l c ci) cap := by
  have hget := fun k => getD_swapL l c ci k hcic hcil
  have hswlen : (swapL l c ci).length = l.length := length_swapL l c ci
  have halen : (avail l cap).length = cap := avail_length l cap hl
  apply List.ext_getElem?
  intro k
  rw [List.getElem?_set, List.getElem?_set]
  by_cases hk1 : ci = k
  · rw [if_pos hk1, if_pos (by rw [List.length_set, halen]; omega), ← hk1,
      avail_getElem?_lt (swapL l c ci) cap ci (by omega), hget ci,
      if_neg (by omega), if_pos rfl]
  · rw [if_neg hk1]
    by_cases hk2 : c = k
    · rw [if_pos hk2, if_pos (by rw [halen]; omega), ← hk2,
        avail_getElem?_lt (swapL l c ci) cap c (by omega), hget c, if_pos rfl]
    · rw [if_neg hk2]
      by_cases hk3 : k < l.length
      · rw [avail_getElem?_lt l cap k hk3,
          avail_getElem?_lt (swapL l c ci) cap k (by omega), hget k,
          if_neg (fun hc => hk2 hc.symm), if_neg (fun hc => hk1 hc.symm)]
      · by_cases hk4 : k < cap
        · rw [avail_getElem?_ge l cap k (by omega) hk4,
            avail_getElem?_ge (swapL l c ci) cap k (by omega) hk4]
        · rw [avail_getElem?_ge_cap l cap k hl (by omega),
            avail_getElem?_ge_cap (swapL l c ci) cap k (by omega) (by omega)]

theorem siftDown_sim_aux (cap : Nat) (n : Nat) : ∀ (l : List Nat) (c fuel : Nat),
    c < l.length → l.length ≤ cap → l.length - c ≤ n → n ≤ fuel → 0 < fuel →
    siftDown cap fuel c (avail l cap) = some (avail (siftDownL l c) cap) := by
  induction n with
  | zero =>
    intro l c fuel hc hl hn hf hf0
    omega
  | succ n ih =>
    intro l c fuel hc hl hn hf hf0
    obtain ⟨f, rfl⟩ : ∃ f, fuel = f + 1 := ⟨fuel - 1, by omega⟩
    by_cases h1 : 2 * c + 1 < cap
    · have hcur : (avail l cap)[c]? = some (Item.Available (l.getD c 0)) :=
        avail_getElem?_lt l cap c hc
      by_cases hL1 : 2 * c + 1 < l.length
      · -- left child inside the occupied prefix
        have hlef : (avail l cap)[2 * c + 1]? =
            some (Item.Available (l.getD (2 * c + 1) 0)) :=
          avail_getElem?_lt l cap _ hL1
        by_cases h2 : 2 * c + 2 < cap
        · by_cases hR1 : 2 * c + 2 < l.length
          · -- both children inside the prefix
            have hrig : (avail l cap)[2 * c + 2]? =
                some (Item.Available (l.getD (2 * c + 2) 0)) :=
              avail_getElem?_lt l cap _ hR1
            by_cases hvr : l.getD (2 * c + 1) 0 < l.getD (2 * c + 2) 0
            · -- right child chosen
              by_cases hsw : l.getD c 0 < l.getD (2 * c + 2) 0
              · simp only [siftDown, if_pos h1, if_pos h2, hlef, hrig, hcur, pickChild,
                  Item.get_val, if_pos hvr, if_pos hsw]
                rw [show 2 * c + 1 + 1 = 2 * c + 2 by omega]
                rw [avail_swap_eq l cap c (2 * c + 2) (by omega) hR1 hl]
                rw [ih (swapL l c (2 * c + 2)) (2 * c + 2) f
                  (by rw [length_swapL]; omega) (by rw [length_swapL]; omega)
                  (by rw [length_swapL]; omega) (by omega) (by omega)]
                conv_rhs => rw [siftDownL, dif_pos hL1, dif_pos (And.intro hR1 hvr),
                  if_pos hsw]
              · simp only [siftDown, if_pos h1, if_pos h2, hlef, hrig, hcur, pickChild,
                  Item.get_val, if_pos hvr, if_neg hsw]
                conv_rhs => rw [siftDownL, dif_pos hL1, dif_pos (And.intro hR1 hvr),
                  if_neg hsw]
            · -- left child chosen (ties go left)
              by_cases hsw : l.getD c 0 < l.getD (2 * c + 1) 0
              · simp only [siftDown, if_pos h1, if_pos h2, hlef, hrig, hcur, pickChild,
                  Item.get_val, if_neg hvr, if_pos hsw]
                rw [avail_swap_eq l cap c (2 * c + 1) (by omega) hL1 hl]
                rw [ih (swapL l c (2 * c + 1)) (2 * c + 1) f
                  (by rw [length_swapL]; omega) (by rw [length_swapL]; omega)
                  (by rw [length_swapL]; omega) (by omega) (by omega)]
                conv_rhs => rw [siftDownL, dif_pos hL1,
                  dif_neg (fun hco => hvr hco.2), if_pos hsw]
              · simp only [siftDown, if_pos h1, if_pos h2, hlef, hrig, hcur, pickChild,
                  Item.get_val, if_neg hvr, if_neg hsw]
                conv_rhs => rw [siftDownL, dif_pos hL1,
                  dif_neg (fun hco => hvr hco.2), if_neg hsw]
          · -- right child outside the prefix but inside cap: Empty slot, left chosen
            have hrig : (avail l cap)[2 * c + 2]? = some Item.Empty :=
              avail_getElem?_ge l cap _ (by omega) h2
            by_cases hsw : l.getD c 0 < l.getD (2 * c + 1) 0
            · simp only [siftDown, if_pos h1, if_pos h2, hlef, hrig, hcur, pickChild,
                Item.get_val, if_pos hsw]
              rw [avail_swap_eq l cap c (2 * c + 1) (by omega) hL1 hl]
              rw [ih (swapL l c (2 * c + 1)) (2 * c + 1) f
                (by rw [length_swapL]; omega) (by rw [length_swapL]; omega)
                (by rw [length_swapL]; omega) (by omega) (by omega)]
              conv_rhs => rw [siftDownL, dif_pos hL1,
                dif_neg (fun hco => hR1 hco.1), if_pos hsw]
            · simp only [siftDown, if_pos h1, if_pos h2, hlef, hrig, hcur, pickChild,
                Item.get_val, if_neg hsw]
              conv_rhs => rw [siftDownL, dif_pos hL1,
                dif_neg (fun hco => hR1 hco.1), if_neg hsw]
        · -- no right child below cap: left chosen
          by_cases hsw : l.getD c 0 < l.getD (2 * c + 1) 0
          · simp only [siftDown, if_pos h1, if_neg h2, hlef, hcur, pickChild,
              Item.get_val, if_pos hsw]
            rw [avail_swap_eq l cap c (2 * c + 1) (by omega) hL1 hl]
            rw [ih (swapL l c (2 * c + 1)) (2 * c + 1) f
              (by rw [length_swapL]; omega) (by rw [length_swapL]; omega)
              (by rw [length_swapL]; omega) (by omega) (by omega)]
            conv_rhs => rw [siftDownL, dif_pos hL1,
              dif_neg (fun hco => h2 (by omega)), if_pos hsw]
          · simp only [siftDown, if_pos h1, if_neg h2, hlef, hcur, pickChild,
              Item.get_val, if_neg hsw]
            conv_rhs => rw [siftDownL, dif_pos hL1,
              dif_neg (fun hco => h2 (by omega)), if_neg hsw]
      · -- left child outside the prefix: Empty slot stops the sift
        have hlef : (avail l cap)[2 * c + 1]? = some Item.Empty :=
          avail_getElem?_ge l cap _ (by omega) h1
        by_cases h2 : 2 * c + 2 < cap
        · have hrig : (avail l cap)[2 * c + 2]? = some Item.Empty :=
            avail_getElem?_ge l cap _ (by omega) h2
          simp only [siftDown, if_pos h1, if_pos h2, hlef, hrig, pickChild, Item.get_val]
          rw [siftDownL, dif_neg (by omega)]
        · simp only [siftDown, if_pos h1, if_neg h2, hlef, pickChild, Item.get_val]
          rw [siftDownL, dif_neg (by omega)]
    · simp only [siftDown, if_neg h1]
      rw [siftDownL, dif_neg (by omega)]

theorem siftDown_sim (cap : Nat) (l : List Nat) (hl : l.length ≤ cap)
    (hc : 0 < l.length) :
    siftDown cap cap 0 (avail l cap) = some (avail (siftDownL l 0) cap) :=
  siftDown_sim_aux cap cap l 0 cap hc hl (by omega) (le_refl cap) (by omega)

/-! ## Heap-level specifications of push and pop -/

/-- Abstraction relation: the heap is at rest, denoting the occupied prefix `l`. -/
def absR (h : Heap) (l : List Nat) : Prop :=
  h.data = avail l h.cap ∧ h.size = l.length ∧ l.length ≤ h.cap

theorem getD_append_lt (l : List Nat) (v : Nat) (i : Nat) (hi : i < l.length) :
    (l ++ [v]).getD i 0 = l.getD i 0 := by
  rw [List.getD_eq_getElem?_getD, List.getD_eq_getElem?_getD, List.getElem?_append,
    if_pos hi]

theorem getD_append_self (l : List Nat) (v : Nat) :
    (l ++ [v]).getD l.length 0 = v := by
  rw [List.getD_eq_getElem?_getD, List.getElem?_append_right (le_refl _), Nat.sub_self]
  rfl

theorem avail_set_append (l : List Nat) (cap v : Nat) (hl : l.length < cap) :
    (avail l cap).set l.length (Item.Available v) = avail (l ++ [v]) cap := by
  apply List.ext_getElem?
  intro k
  rw [List.getElem?_set]
  by_cases hk : l.length = k
  · rw [if_pos hk, if_pos (by rw [avail_length l cap (by omega)]; omega), ← hk,
      avail_getElem?_lt (l ++ [v]) cap l.length (by simp), getD_append_self]
  · rw [if_neg hk]
    by_cases hk2 : k < l.length
    · rw [avail_getElem?_lt l cap k hk2, avail_getElem?_lt (l ++ [v]) cap k
        (by simp; omega), getD_append_lt l v k hk2]
    · by_cases hk3 : k < cap
      · rw [avail_getElem?_ge l cap k (by omega) hk3,
          avail_getElem?_ge (l ++ [v]) cap k (by simp; omega) hk3]
      · rw [avail_getElem?_ge_cap l cap k (by omega) (by omega),
          avail_getElem?_ge_cap (l ++ [v]) cap k (by simp; omega) (by omega)]

theorem upInv_append (l : List Nat) (v : Nat) (hh : isHeap l) :
    upInv (l ++ [v]) l.length := by
  constructor
  · intro i hi hil hine
    have hil2 : i < l.length := by
      rw [List.length_append, List.length_singleton] at hil
      omega
    have hpl : parent i < l.length := lt_trans (parent_lt i hi) hil2
    rw [getD_append_lt l v i hil2, getD_append_lt l v (parent i) hpl]
    exact hh i hi hil2
  · intro i hil hpi hine hp0
    exfalso
    have hi0 : 0 < i := pos_of_parent_ne i l.length hpi hine
    rw [List.length_append, List.length_singleton] at hil
    rcases child_of_parent i hi0 with hc | hc <;> rw [hpi] at hc <;> omega

theorem push_spec (myId : Nat) (h : Heap) (l : List Nat) (v : Nat)
    (ha : absR h l) (hh : isHeap l) (hcap : h.size < h.cap) :
    Heap.push myId h v
      = some ⟨h.cap, avail (siftUpL (l ++ [v]) l.length) h.cap, h.size + 1⟩ ∧
    isHeap (siftUpL (l ++ [v]) l.length) ∧
    List.Perm (siftUpL (l ++ [v]) l.length) (l ++ [v]) ∧
    (siftUpL (l ++ [v]) l.length).length = l.length + 1 := by
  obtain ⟨hd, hsz, hlc⟩ := ha
  have hlcap : l.length < h.cap := by omega
  have hlenapp : (l ++ [v]).length = l.length + 1 := by simp
  have hplt : l.length < (l ++ [v]).length := by omega
  have hperm : List.Perm (siftUpL (l ++ [v]) l.length) (l ++ [v]) :=
    siftUpL_perm l.length (l ++ [v]) hplt
  have hlen2 : (siftUpL (l ++ [v]) l.length).length = l.length + 1 := by
    rw [siftUpL_length l.length (l ++ [v]) hplt, hlenapp]
  have hheap2 : isHeap (siftUpL (l ++ [v]) l.length) :=
    siftUpL_heap l.length (l ++ [v]) hplt (upInv_append l v hh)
  refine ⟨?_, hheap2, hperm, hlen2⟩
  unfold Heap.push
  rw [if_neg (by omega)]
  have hslot : h.data[h.size]? = some Item.Empty := by
    rw [hd, hsz]
    exact avail_getElem?_ge l h.cap l.length (le_refl _) hlcap
  simp only [hslot]
  by_cases hz : h.size = 0
  · rw [if_pos hz]
    have hl0 : l = [] := by
      rw [hsz] at hz
      exact List.eq_nil_of_length_eq_zero hz
    subst hl0
    have heq : h.data.set 0 (Item.Available v) = avail (siftUpL ([] ++ [v]) 0) h.cap := by
      rw [siftUpL, dif_pos rfl, hd]
      have := avail_set_append [] h.cap v hlcap
      simpa using this
    rw [hz, heq]
    rfl
  · rw [if_neg hz]
    have hsz0 : 0 < l.length := by omega
    have hup : h.data.set h.size (Item.InProgress v myId)
        = upState (l ++ [v]) l.length myId h.cap := by
      rw [hd, hsz]
      unfold upState
      rw [← avail_set_append l h.cap v hlcap, List.set_set, getD_append_self]
    rw [hsz] at hup ⊢
    rw [hup, siftUp_sim myId h.cap l.length (l ++ [v]) l.length hsz0 hplt
      (by omega) (le_refl _)]

/-- The occupied prefix after `pop`'s root extraction and bottom-to-root swap:
drop the last element and overwrite the root with it. -/
def popList (l : List Nat) : List Nat :=
  (l.take (l.length - 1)).set 0 (l.getD (l.length - 1) 0)

theorem popList_length (l : List Nat) (_hl : 1 ≤ l.length) :
    (popList l).length = l.length - 1 := by
  simp [popList]

theorem getD_popList_zero (l : List Nat) (hl2 : 2 ≤ l.length) :
    (popList l).getD 0 0 = l.getD (l.length - 1) 0 := by
  unfold popList
  rw [List.getD_eq_getElem?_getD, List.getElem?_set, if_pos rfl,
    if_pos (by rw [List.length_take]; omega)]
  rfl

theorem getD_popList_pos (l : List Nat) (i : Nat) (hi : 0 < i) (hi2 : i < l.length - 1) :
    (popList l).getD i 0 = l.getD i 0 := by
  unfold popList
  rw [List.getD_eq_getElem?_getD, List.getElem?_set, if_neg (by omega),
    List.getElem?_take, if_pos hi2, List.getD_eq_getElem?_getD]

theorem avail_take_set_empty (l : List Nat) (cap : Nat) (hl1 : l.length = 1)
    (hl : l.length ≤ cap) :
    (avail l cap).set 0 Item.Empty = avail [] cap := by
  apply List.ext_getElem?
  intro k
  rw [List.getElem?_set]
  by_cases hk : 0 = k
  · rw [if_pos hk, if_pos (by rw [avail_length l cap hl]; omega), ← hk,
      avail_getElem?_ge [] cap 0 (by simp) (by omega)]
  · rw [if_neg hk]
    by_cases hk2 : k < cap
    · rw [avail_getElem?_ge l cap k (by omega) hk2,
        avail_getElem?_ge [] cap k (by simp) hk2]
    · rw [avail_getElem?_ge_cap l cap k hl (by omega),
        avail_getElem?_ge_cap [] cap k (by simp) (by omega)]

theorem avail_pop_eq (l : List Nat) (cap : Nat) (hl2 : 2 ≤ l.length)
    (hl : l.length ≤ cap) :
    ((avail l cap).set 0 (Item.Available (l.getD (l.length - 1) 0))).set (l.length - 1)
        Item.Empty = avail (popList l) cap := by
  have hplen : (popList l).length = l.length - 1 := popList_length l (by omega)
  apply List.ext_getElem?
  intro k
  rw [List.getElem?_set, List.getElem?_set]
  by_cases hk1 : l.length - 1 = k
  · rw [if_pos hk1, if_pos (by rw [List.length_set, avail_length l cap hl]; omega), ← hk1,
      avail_getElem?_ge (popList l) cap (l.length - 1) (by omega) (by omega)]
  · rw [if_neg hk1]
    by_cases hk2 : 0 = k
    · rw [if_pos hk2, if_pos (by rw [avail_length l cap hl]; omega), ← hk2,
        avail_getElem?_lt (popList l) cap 0 (by omega), getD_popList_zero l hl2]
    · rw [if_neg hk2]
      by_cases hk3 : k < l.length - 1
      · rw [avail_getElem?_lt l cap k (by omega),
          avail_getElem?_lt (popList l) cap k (by omega),
          getD_popList_pos l k (by omega) hk3]
      · by_cases hk4 : k < cap
        · rw [avail_getElem?_ge l cap k (by omega) hk4,
            avail_getElem?_ge (popList l) cap k (by omega) hk4]
        · rw [avail_getElem?_ge_cap l cap k hl (by omega),
            avail_getElem?_ge_cap (popList l) cap k (by omega) (by omega)]

theorem downInv_popList (l : List Nat) (hh : isHeap l) (hl2 : 2 ≤ l.length) :
    downInv (popList l) 0 := by
  constructor
  · intro i hi hil hpi
    rw [popList_length l (by omega)] at hil
    have hp0 : 0 < parent i := by
      rcases Nat.eq_zero_or_pos (parent i) with hz | hp
      · exact absurd hz hpi
      · exact hp
    have hplt : parent i < i := parent_lt i hi
    rw [getD_popList_pos l i hi hil, getD_popList_pos l (parent i) hp0 (by omega)]
    exact hh i hi (by omega)
  · intro i hil hpi hine hc0
    omega

theorem cons_popList_perm (l : List Nat) (hl2 : 2 ≤ l.length) :
    List.Perm (l.getD 0 0 :: popList l) l := by
  obtain ⟨a, t, rfl⟩ : ∃ a t, l = a :: t := by
    cases l with
    | nil => simp at hl2
    | cons a t => exact ⟨a, t, rfl⟩
  have ht : t ≠ [] := by
    intro hcon
    rw [hcon] at hl2
    simp at hl2
  obtain ⟨m, hm⟩ : ∃ m, t.length = m + 1 :=
    ⟨t.length - 1, by have := List.length_pos.mpr ht; omega⟩
  have hmt : m < t.length := by omega
  have hlen : (a :: t).length - 1 = t.length := by simp
  have htake : (a :: t).take ((a :: t).length - 1) = a :: t.dropLast := by
    rw [hlen, hm, List.take_succ_cons, List.dropLast_eq_take, hm]
    simp
  have hgetD : (a :: t).getD ((a :: t).length - 1) 0 = t.getD m 0 := by
    rw [hlen, hm, List.getD_cons_succ]
  have hpop : popList (a :: t) = t.getD m 0 :: t.dropLast := by
    unfold popList
    rw [htake, hgetD, List.set_cons_zero]
  rw [hpop, List.getD_cons_zero]
  refine List.Perm.cons a ?_
  have hgl : t.getLast ht = t.getD m 0 := by
    rw [List.getLast_eq_getElem, List.getD_eq_getElem?_getD,
      List.getElem?_eq_getElem hmt, Option.getD_some]
    congr 1
    omega
  conv_rhs => rw [← List.dropLast_append_getLast ht, hgl]
  exact (List.perm_append_singleton _ _).symm

theorem isHeap_mem_le_root (l : List Nat) (hh : isHeap l) :
    ∀ x ∈ l, x ≤ l.getD 0 0 := by
  intro x hx
  obtain ⟨i, hi, hix⟩ := List.mem_iff_getElem.mp hx
  have h2 := isHeap_root_max l hh i hi
  rw [List.getD_eq_getElem?_getD, List.getElem?_eq_getElem hi] at h2
  rw [← hix]
  exact h2

theorem pop_spec (h : Heap) (l : List Nat) (ha : absR h l) (hh : isHeap l)
    (hs : 0 < h.size) :
    ∃ l2, Heap.pop h = some (l.getD 0 0, ⟨h.cap, avail l2 h.cap, h.size - 1⟩) ∧
      isHeap l2 ∧ List.Perm (l.getD 0 0 :: l2) l ∧ l2.length = l.length - 1 ∧
      (∀ x ∈ l, x ≤ l.getD 0 0) := by
  obtain ⟨hd, hsz, hlc⟩ := ha
  have hl0 : 0 < l.length := by omega
  have hroot : h.data[0]? = some (Item.Available (l.getD 0 0)) := by
    rw [hd]
    exact avail_getElem?_lt l h.cap 0 hl0
  have hmax : ∀ x ∈ l, x ≤ l.getD 0 0 := isHeap_mem_le_root l hh
  unfold Heap.pop
  rw [if_neg (by omega)]
  simp only [hroot, Item.take_val]
  by_cases hb : h.size - 1 = 0
  · rw [if_pos hb]
    have hl1 : l.length = 1 := by omega
    refine ⟨[], ?_, ?_, ?_, ?_, hmax⟩
    · rw [hd, avail_take_set_empty l h.cap hl1 hlc, hb]
    · intro i hi hil
      simp at hil
    · obtain ⟨a, rfl⟩ : ∃ a, l = [a] := by
        cases l with
        | nil => simp at hl1
        | cons a t =>
          refine ⟨a, ?_⟩
          have ht0 : t.length = 0 := by
            simp only [List.length_cons] at hl1
            omega
          rw [List.eq_nil_of_length_eq_zero ht0]
      simp
    · simp
      omega
  · rw [if_neg hb]
    have hl2 : 2 ≤ l.length := by omega
    have hbot : h.data[h.size - 1]? =
        some (Item.Available (l.getD (l.length - 1) 0)) := by
      rw [hd, hsz]
      exact avail_getElem?_lt l h.cap (l.length - 1) (by omega)
    simp only [hbot]
    have hdat1 : (h.data.set 0 (Item.Available (l.getD (l.length - 1) 0))).set
        (h.size - 1) Item.Empty = avail (popList l) h.cap := by
      rw [hd, hsz]
      exact avail_pop_eq l h.cap hl2 hlc
    rw [hdat1]
    have hplen : (popList l).length = l.length - 1 := popList_length l (by omega)
    rw [siftDown_sim h.cap (popList l) (by omega) (by omega)]
    refine ⟨siftDownL (popList l) 0, rfl, ?_, ?_, ?_, hmax⟩
    · exact siftDownL_heap (popList l) 0 (downInv_popList l hh hl2)
    · exact (List.Perm.cons (l.getD 0 0) (siftDownL_perm (popList l) 0)).trans
        (cons_popList_perm l hl2)
    · rw [siftDownL_length, hplen]

/-! ## Single-threaded runs -/

/-- One call in a single-threaded run. -/
inductive Op : Type where
  | push : Nat → Op
  | pop : Op
deriving DecidableEq

/-- Execute a sequence of calls, collecting the popped values.  All pushes use
thread id 0 (the only thread).  `none` signals a panic or a blocked call. -/
def run (h : Heap) : List Op → Option (Heap × List Nat)
  | [] => some (h, [])
  | Op.push v :: ops =>
    match h.push 0 v with
    | some h2 => run h2 ops
    | none => none
  | Op.pop :: ops =>
    match h.pop with
    | some (v, h2) =>
      match run h2 ops with
      | some (h3, outs) => some (h3, v :: outs)
      | none => none
    | none => none

/-- The calling discipline: each push is issued while size < cap and each pop
while size > 0 (so no call would block). -/
def sizesOk (cap : Nat) : Nat → List Op → Prop
  | _, [] => True
  | s, Op.push _ :: ops => s < cap ∧ sizesOk cap (s + 1) ops
  | s, Op.pop :: ops => 0 < s ∧ sizesOk cap (s - 1) ops

instance sizesOk.dec (cap : Nat) : (s : Nat) → (ops : List Op) →
    Decidable (sizesOk cap s ops)
  | _, [] => Decidable.isTrue trivial
  | s, Op.push _ :: ops =>
    have : Decidable (sizesOk cap (s + 1) ops) := sizesOk.dec cap (s + 1) ops
    inferInstanceAs (Decidable (_ ∧ _))
  | s, Op.pop :: ops =>
    have : Decidable (sizesOk cap (s - 1) ops) := sizesOk.dec cap (s - 1) ops
    inferInstanceAs (Decidable (_ ∧ _))

/-- The values supplied to push across a run, in order. -/
def pushedVals : List Op → List Nat
  | [] => []
  | Op.push v :: ops => v :: pushedVals ops
  | Op.pop :: ops => pushedVals ops

/-- The values currently held in slots (in slot order). -/
def slotVals (h : Heap) : List Nat := h.data.filterMap Item.get_val

/-- Push a list of values left to right. -/
def pushAll (h : Heap) : List Nat → Option Heap
  | [] => some h
  | v :: vs =>
    match h.push 0 v with
    | some h2 => pushAll h2 vs
    | none => none

/-- Pop until the heap is empty (fuel-indexed; the size is enough fuel). -/
def drain : Nat → Heap → Option (List Nat)
  | 0, _ => some []
  | fuel + 1, h =>
    if h.size = 0 then some []
    else
      match h.pop with
      | some (v, h2) =>
        match drain fuel h2 with
        | some outs => some (v :: outs)
        | none => none
      | none => none

/-- Pop exactly `k` times, collecting the returned values. -/
def popk : Nat → Heap → Option (List Nat × Heap)
  | 0, h => some ([], h)
  | k + 1, h =>
    match h.pop with
    | some (v, h2) =>
      match popk k h2 with
      | some (outs, h3) => some (v :: outs, h3)
      | none => none
    | none => none

theorem filterMap_get_val_avail (l : List Nat) :
    List.filterMap (Item.get_val ∘ Item.Available) l = l := by
  induction l with
  | nil => rfl
  | cons a t iht => simp [List.filterMap_cons, Item.get_val, iht, Function.comp]

theorem filterMap_get_val_replicate (n : Nat) :
    List.filterMap Item.get_val (List.replicate n Item.Empty) = [] := by
  induction n with
  | zero => rfl
  | succ n ihn => simp [List.replicate_succ, List.filterMap_cons, Item.get_val, ihn]

theorem slotVals_of_absR (h : Heap) (l : List Nat) (ha : absR h l) :
    slotVals h = l := by
  rw [slotVals, ha.1, avail, List.filterMap_append, List.filterMap_map,
    filterMap_get_val_avail, filterMap_get_val_replicate, List.append_nil]

theorem run_spec : ∀ (ops : List Op) (h : Heap) (l : List Nat),
    absR h l → isHeap l → sizesOk h.cap h.size ops →
    ∃ h2 l2 outs, run h ops = some (h2, outs) ∧ h2.cap = h.cap ∧ absR h2 l2 ∧
      isHeap l2 ∧ List.Perm (outs ++ l2) (pushedVals ops ++ l) := by
  intro ops
  induction ops with
  | nil =>
    intro h l ha hh hso
    exact ⟨h, l, [], rfl, rfl, ha, hh, by simp [pushedVals]⟩
  | cons op ops ih =>
    intro h l ha hh hso
    cases op with
    | push v =>
      obtain ⟨hs1, hs2⟩ := hso
      obtain ⟨hpush, hheap2, hperm2, hlen2⟩ := push_spec 0 h l v ha hh hs1
      have ha2 : absR ⟨h.cap, avail (siftUpL (l ++ [v]) l.length) h.cap, h.size + 1⟩
          (siftUpL (l ++ [v]) l.length) := by
        refine ⟨rfl, ?_, ?_⟩
        · rw [hlen2, ha.2.1]
        · show (siftUpL (l ++ [v]) l.length).length ≤ h.cap
          rw [hlen2]
          have := ha.2.1
          omega
      simp only [run, hpush]
      obtain ⟨h3, l3, outs, hrun, hcap3, ha3, hh3, hperm3⟩ :=
        ih ⟨h.cap, avail (siftUpL (l ++ [v]) l.length) h.cap, h.size + 1⟩
          (siftUpL (l ++ [v]) l.length) ha2 hheap2 hs2
      refine ⟨h3, l3, outs, hrun, hcap3, ha3, hh3, ?_⟩
      have hstep : List.Perm (pushedVals ops ++ siftUpL (l ++ [v]) l.length)
          (v :: (pushedVals ops ++ l)) := by
        refine (List.Perm.append_left (pushedVals ops) hperm2).trans ?_
        rw [← List.append_assoc]
        exact List.perm_append_singleton v (pushedVals ops ++ l)
      simp only [pushedVals, List.cons_append]
      exact hperm3.trans hstep
    | pop =>
      obtain ⟨hs1, hs2⟩ := hso
      obtain ⟨l2, hpop, hh2, hperm2, hlen2, hmax⟩ := pop_spec h l ha hh hs1
      have ha2 : absR ⟨h.cap, avail l2 h.cap, h.size - 1⟩ l2 := by
        refine ⟨rfl, ?_, ?_⟩
        · rw [hlen2, ha.2.1]
        · show l2.length ≤ h.cap
          rw [hlen2]
          have := ha.2.2
          omega
      simp only [run, hpop]
      obtain ⟨h3, l3, outs, hrun, hcap3, ha3, hh3, hperm3⟩ :=
        ih ⟨h.cap, avail l2 h.cap, h.size - 1⟩ l2 ha2 hh2 hs2
      rw [hrun]
      refine ⟨h3, l3, l.getD 0 0 :: outs, rfl, hcap3, ha3, hh3, ?_⟩
      simp only [pushedVals, List.cons_append]
      refine (List.Perm.cons (l.getD 0 0) hperm3).trans ?_
      refine List.Perm.trans ?_ (List.Perm.append_left (pushedVals ops) hperm2)
      exact (List.perm_middle).symm

theorem pushAll_spec : ∀ (vs : List Nat) (h : Heap) (l : List Nat),
    absR h l → isHeap l → l.length + vs.length ≤ h.cap →
    ∃ h2 l2, pushAll h vs = some h2 ∧ h2.cap = h.cap ∧ h2.size = l.length + vs.length ∧
      absR h2 l2 ∧ isHeap l2 ∧ List.Perm l2 (l ++ vs) := by
  intro vs
  induction vs with
  | nil =>
    intro h l ha hh hcap
    exact ⟨h, l, rfl, rfl, by rw [ha.2.1]; simp, ha, hh, by simp⟩
  | cons v vs ih =>
    intro h l ha hh hcap
    have hs1 : h.size < h.cap := by
      have := ha.2.1
      simp only [List.length_cons] at hcap
      omega
    obtain ⟨hpush, hheap2, hperm2, hlen2⟩ := push_spec 0 h l v ha hh hs1
    have ha2 : absR ⟨h.cap, avail (siftUpL (l ++ [v]) l.length) h.cap, h.size + 1⟩
        (siftUpL (l ++ [v]) l.length) := by
      refine ⟨rfl, ?_, ?_⟩
      · rw [hlen2, ha.2.1]
      · show (siftUpL (l ++ [v]) l.length).length ≤ h.cap
        rw [hlen2]
        have := ha.2.1
        omega
    simp only [pushAll, hpush]
    obtain ⟨h3, l3, hrun, hcap3, hsz3, ha3, hh3, hperm3⟩ :=
      ih ⟨h.cap, avail (siftUpL (l ++ [v]) l.length) h.cap, h.size + 1⟩
        (siftUpL (l ++ [v]) l.length) ha2 hheap2
        (by show (siftUpL (l ++ [v]) l.length).length + vs.length ≤ h.cap
            rw [hlen2]
            simp only [List.length_cons] at hcap
            omega)
    refine ⟨h3, l3, hrun, hcap3, ?_, ha3, hh3, ?_⟩
    · rw [hsz3, hlen2]
      show l.length + 1 + vs.length = l.length + (v :: vs).length
      simp only [List.length_cons]
      omega
    · refine hperm3.trans ?_
      refine (List.Perm.append_right vs hperm2).trans ?_
      rw [List.append_assoc]
      rfl

theorem drain_spec_aux (n : Nat) : ∀ (l : List Nat) (h : Heap), l.length = n →
    absR h l → isHeap l →
    ∃ outs, drain h.size h = some outs ∧ List.Sorted (· ≥ ·) outs ∧
      List.Perm outs l := by
  induction n with
  | zero =>
    intro l h hn ha hh
    have hl0 : l = [] := List.eq_nil_of_length_eq_zero hn
    have hsz : h.size = 0 := by rw [ha.2.1, hn]
    rw [hsz]
    exact ⟨[], rfl, List.sorted_nil, by rw [hl0]⟩
  | succ n ih =>
    intro l h hn ha hh
    have hsz : h.size = n + 1 := by rw [ha.2.1, hn]
    obtain ⟨l2, hpop, hh2, hperm2, hlen2, hmax⟩ := pop_spec h l ha hh (by omega)
    have ha2 : absR ⟨h.cap, avail l2 h.cap, h.size - 1⟩ l2 := by
      refine ⟨rfl, ?_, ?_⟩
      · rw [hlen2, ha.2.1]
      · show l2.length ≤ h.cap
        rw [hlen2]
        have := ha.2.2
        omega
    obtain ⟨outs2, hdr2, hsort2, hperm3⟩ :=
      ih l2 ⟨h.cap, avail l2 h.cap, h.size - 1⟩ (by omega) ha2 hh2
    have hsz2 : (⟨h.cap, avail l2 h.cap, h.size - 1⟩ : Heap).size = n := by
      show h.size - 1 = n
      omega
    rw [hsz2] at hdr2
    rw [hsz]
    simp only [drain]
    rw [if_neg (by omega)]
    simp only [hpop, hdr2]
    refine ⟨l.getD 0 0 :: outs2, rfl, ?_, ?_⟩
    · rw [List.sorted_cons]
      refine ⟨?_, hsort2⟩
      intro b hb
      have hb2 : b ∈ l2 := (hperm3.mem_iff).mp hb
      have hb3 : b ∈ l := (hperm2.mem_iff).mp (List.mem_cons_of_mem _ hb2)
      exact hmax b hb3
    · exact (List.Perm.cons _ hperm3).trans hperm2

theorem drain_spec (l : List Nat) (h : Heap) (ha : absR h l) (hh : isHeap l) :
    ∃ outs, drain h.size h = some outs ∧ List.Sorted (· ≥ ·) outs ∧
      List.Perm outs l :=
  drain_spec_aux l.length l h rfl ha hh

/-! ## Descending fill -/

/-- The list `[N, N-1, ..., N-k+1]`. -/
def descList (N k : Nat) : List Nat := (List.range k).map (fun i => N - i)

theorem descList_length (N k : Nat) : (descList N k).length = k := by
  simp [descList]

theorem descList_getD (N k i : Nat) (hi : i < k) : (descList N k).getD i 0 = N - i := by
  unfold descList
  rw [List.getD_eq_getElem?_getD, List.getElem?_map, List.getElem?_range hi]
  rfl

theorem descList_succ (N k : Nat) : descList N (k + 1) = descList N k ++ [N - k] := by
  unfold descList
  rw [List.range_succ, List.map_append]
  rfl

theorem descList_cons (m : Nat) (hm : 0 < m) :
    descList m m = m :: descList (m - 1) (m - 1) := by
  obtain ⟨m2, rfl⟩ : ∃ m2, m = m2 + 1 := ⟨m - 1, by omega⟩
  unfold descList
  rw [List.range_succ_eq_map, List.map_cons, List.map_map]
  simp only [Nat.sub_zero, Nat.add_sub_cancel]
  congr 1
  refine List.map_congr_left ?_
  intro i hi
  simp only [Function.comp_apply, Nat.succ_eq_add_one]
  omega

theorem isHeap_descList (N k : Nat) : isHeap (descList N k) := by
  intro i hi hil
  rw [descList_length] at hil
  have hpl : parent i < i := parent_lt i hi
  rw [descList_getD N k i hil, descList_getD N k (parent i) (by omega)]
  omega

theorem siftUpL_append_no_swap (l : List Nat) (v : Nat) (hp0 : 0 < l.length)
    (hle : v ≤ l.getD (parent l.length) 0) :
    siftUpL (l ++ [v]) l.length = l ++ [v] := by
  rw [siftUpL, dif_neg (by omega)]
  have hpl : parent l.length < l.length := parent_lt l.length hp0
  rw [getD_append_lt l v (parent l.length) hpl, getD_append_self]
  rw [if_neg (by omega)]

theorem pushAll_descList (N : Nat) : ∀ j k, k + j = N →
    pushAll ⟨N, avail (descList N k) N, k⟩ ((List.range j).map (fun i => N - (k + i)))
      = some ⟨N, avail (descList N N) N, N⟩ := by
  intro j
  induction j with
  | zero =>
    intro k hk
    have hkN : k = N := by omega
    rw [hkN]
    rfl
  | succ j ih =>
    intro k hk
    have habs : absR ⟨N, avail (descList N k) N, k⟩ (descList N k) :=
      ⟨rfl, (descList_length N k).symm,
        by show (descList N k).length ≤ N; rw [descList_length]; omega⟩
    obtain ⟨hpush, hheap2, hperm2, hlen2⟩ :=
      push_spec 0 ⟨N, avail (descList N k) N, k⟩ (descList N k) (N - k) habs
        (isHeap_descList N k) (by show k < N; omega)
    have hvals : (List.range (j + 1)).map (fun i => N - (k + i))
        = (N - k) :: (List.range j).map (fun i => N - (k + 1 + i)) := by
      rw [List.range_succ_eq_map, List.map_cons, List.map_map]
      simp only [Nat.add_zero]
      congr 1
      refine List.map_congr_left ?_
      intro i hi
      simp only [Function.comp_apply, Nat.succ_eq_add_one]
      omega
    rw [hvals]
    have hsift : siftUpL (descList N k ++ [N - k]) (descList N k).length
        = descList N (k + 1) := by
      rw [descList_succ]
      rcases Nat.eq_zero_or_pos k with hk0 | hk0
      · subst hk0
        have h0 : descList N 0 = [] := by simp [descList]
        rw [h0, List.nil_append, List.length_nil, siftUpL, dif_pos rfl]
      · refine siftUpL_append_no_swap (descList N k) (N - k)
          (by rw [descList_length]; omega) ?_
        have hpk : parent k < k := parent_lt k hk0
        rw [descList_length, descList_getD N k (parent k) hpk]
        omega
    simp only [pushAll, hpush, hsift]
    exact ih (k + 1) (by omega)

theorem getD_zero_mem (l : List Nat) (hl : 0 < l.length) : l.getD 0 0 ∈ l := by
  rw [List.getD_eq_getElem?_getD, List.getElem?_eq_getElem hl, Option.getD_some]
  exact List.getElem_mem hl

theorem mem_descList_le (m x : Nat) (hx : x ∈ descList m m) : x ≤ m := by
  unfold descList at hx
  obtain ⟨i, hi, rfl⟩ := List.mem_map.mp hx
  omega

theorem head_mem_descList (m : Nat) (hm : 0 < m) : m ∈ descList m m := by
  rw [descList_cons m hm]
  exact List.mem_cons_self m _

theorem popk_desc : ∀ (k m : Nat) (h : Heap) (l : List Nat), absR h l → isHeap l →
    List.Perm l (descList m m) → k ≤ m →
    ∃ h2 l2, popk k h = some ((List.range k).map (fun i => m - i), h2) ∧
      h2.cap = h.cap ∧ absR h2 l2 ∧ isHeap l2 ∧
      List.Perm l2 (descList (m - k) (m - k)) := by
  intro k
  induction k with
  | zero =>
    intro m h l ha hh hperm hk
    exact ⟨h, l, rfl, rfl, ha, hh, by simpa using hperm⟩
  | succ k ih =>
    intro m h l ha hh hperm hk
    have hm0 : 0 < m := by omega
    have hlen : l.length = m := by
      rw [hperm.length_eq, descList_length]
    have hs0 : 0 < h.size := by rw [ha.2.1]; omega
    obtain ⟨l2, hpop, hh2, hperm2, hlen2, hmax⟩ := pop_spec h l ha hh hs0
    have hroot_mem : l.getD 0 0 ∈ l := getD_zero_mem l (by omega)
    have hroot_le : l.getD 0 0 ≤ m := mem_descList_le m _ (hperm.mem_iff.mp hroot_mem)
    have hm_mem : (m : Nat) ∈ l := hperm.mem_iff.mpr (head_mem_descList m hm0)
    have hroot_ge : m ≤ l.getD 0 0 := hmax m hm_mem
    have hroot : l.getD 0 0 = m := by omega
    have ha2 : absR ⟨h.cap, avail l2 h.cap, h.size - 1⟩ l2 := by
      refine ⟨rfl, ?_, ?_⟩
      · rw [hlen2, ha.2.1]
      · show l2.length ≤ h.cap
        rw [hlen2]
        have := ha.2.2
        omega
    have hperm2b : List.Perm l2 (descList (m - 1) (m - 1)) := by
      have hstep : List.Perm (l.getD 0 0 :: l2) (m :: descList (m - 1) (m - 1)) := by
        rw [← descList_cons m hm0]
        exact hperm2.trans hperm
      rw [hroot] at hstep
      exact hstep.cons_inv
    obtain ⟨h3, l3, hpk, hcap3, ha3, hh3, hperm3⟩ :=
      ih (m - 1) ⟨h.cap, avail l2 h.cap, h.size - 1⟩ l2 ha2 hh2 hperm2b (by omega)
    simp only [popk, hpop, hpk]
    refine ⟨h3, l3, ?_, hcap3, ha3, hh3, ?_⟩
    · rw [hroot]
      have houts : (List.range (k + 1)).map (fun i => m - i)
          = m :: (List.range k).map (fun i => m - 1 - i) := by
        rw [List.range_succ_eq_map, List.map_cons, List.map_map]
        simp only [Nat.sub_zero]
        congr 1
        refine List.map_congr_left ?_
        intro i hi
        simp only [Function.comp_apply, Nat.succ_eq_add_one]
        omega
      rw [houts]
    · have hme : m - 1 - k = m - (k + 1) := by omega
      rw [← hme]
      exact hperm3

/-! ## The claims -/

theorem new_absR (cap : Nat) (h0 : Heap) (hnew : Heap.new cap = some h0) :
    absR h0 [] ∧ isHeap [] ∧ h0.cap = cap ∧ h0.size = 0 := by
  unfold Heap.new at hnew
  by_cases hc : cap = 0
  · rw [if_pos hc] at hnew
    exact absurd hnew (by simp)
  · rw [if_neg hc] at hnew
    obtain rfl := Option.some.inj hnew
    refine ⟨⟨?_, rfl, by simp⟩, ?_, rfl, rfl⟩
    · show List.replicate cap Item.Empty = avail [] cap
      simp [avail]
    · intro i h1 h2
      simp at h2

/-- C1: pushing at most `cap` values into a heap from `new(cap)` and then
popping until empty succeeds, and the popped sequence is sorted in
decreasing order and is a permutation of (has the same multiset as) the
pushed values. -/
theorem claim1_ordering (cap : Nat) (vs : List Nat) (hcap : 0 < cap)
    (hlen : vs.length ≤ cap) :
    ∃ h0 h outs, Heap.new cap = some h0 ∧ pushAll h0 vs = some h ∧
      drain h.size h = some outs ∧ List.Sorted (· ≥ ·) outs ∧
      List.Perm outs vs := by
  have hnew : Heap.new cap = some ⟨cap, List.replicate cap Item.Empty, 0⟩ := by
    unfold Heap.new
    rw [if_neg (by omega)]
  obtain ⟨ha0, hh0, hc0, hs0⟩ := new_absR cap _ hnew
  obtain ⟨h2, l2, hpall, hcap2, hsz2, ha2, hh2, hperm2⟩ :=
    pushAll_spec vs ⟨cap, List.replicate cap Item.Empty, 0⟩ [] ha0 hh0
      (by show List.length [] + vs.length ≤ cap; simpa using hlen)
  obtain ⟨outs, hdr, hsort, hperm3⟩ := drain_spec l2 h2 ha2 hh2
  exact ⟨_, h2, outs, hnew, hpall, hdr, hsort,
    hperm3.trans (hperm2.trans (by simp))⟩

/-- C1 witness. -/
theorem claim1_witness :
    ∃ h0 h outs, Heap.new 10 = some h0 ∧ pushAll h0 [5, 5, 6, 3] = some h ∧
      drain h.size h = some outs ∧ List.Sorted (· ≥ ·) outs ∧
      List.Perm outs [5, 5, 6, 3] :=
  claim1_ordering 10 [5, 5, 6, 3] (by decide) (by decide)

/-- C2: across any single-threaded run respecting the size discipline, the
popped values together with the values still in slots form exactly the
multiset of pushed values: nothing is duplicated and nothing is lost. -/
theorem claim2_conservation (cap : Nat) (ops : List Op) (h0 : Heap)
    (hnew : Heap.new cap = some h0) (hso : sizesOk cap 0 ops) :
    ∃ h2 outs, run h0 ops = some (h2, outs) ∧
      List.Perm (outs ++ slotVals h2) (pushedVals ops) ∧
      ((outs : Multiset Nat) + (slotVals h2 : Multiset Nat)
        = (pushedVals ops : Multiset Nat)) := by
  obtain ⟨ha0, hh0, hc0, hs0⟩ := new_absR cap h0 hnew
  obtain ⟨h2, l2, outs, hrun, hcap2, ha2, hh2, hperm⟩ :=
    run_spec ops h0 [] ha0 hh0 (by rw [hc0, hs0]; simpa using hso)
  have hsv : slotVals h2 = l2 := slotVals_of_absR h2 l2 ha2
  have hperm2 : List.Perm (outs ++ slotVals h2) (pushedVals ops) := by
    rw [hsv]
    simpa using hperm
  exact ⟨h2, outs, hrun, hperm2,
    (by rw [Multiset.coe_add]; exact Multiset.coe_eq_coe.mpr hperm2)⟩

/-- C2 witness. -/
theorem claim2_witness :
    ∃ h2 outs, run ⟨10, List.replicate 10 Item.Empty, 0⟩
        [Op.push 5, Op.push 5, Op.push 6, Op.push 3, Op.pop, Op.pop] = some (h2, outs) ∧
      List.Perm (outs ++ slotVals h2)
        (pushedVals [Op.push 5, Op.push 5, Op.push 6, Op.push 3, Op.pop, Op.pop]) ∧
      ((outs : Multiset Nat) + (slotVals h2 : Multiset Nat)
        = (pushedVals [Op.push 5, Op.push 5, Op.push 6, Op.push 3, Op.pop, Op.pop]
            : Multiset Nat)) :=
  claim2_conservation 10 [Op.push 5, Op.push 5, Op.push 6, Op.push 3, Op.pop, Op.pop]
    ⟨10, List.replicate 10 Item.Empty, 0⟩ (by decide) (by decide)

/-- C3: in every state reachable by a disciplined single-threaded run, slots
`[0, size)` are `Available`, slots `[size, cap)` are `Empty`, the root value
dominates every occupied slot, and every parent value dominates its
children's values. -/
theorem claim3_invariant (cap : Nat) (ops : List Op) (h0 h2 : Heap)
    (outs : List Nat) (hnew : Heap.new cap = some h0) (hso : sizesOk cap 0 ops)
    (hrun : run h0 ops = some (h2, outs)) :
    (∀ i, i < h2.size → ∃ v, h2.data[i]? = some (Item.Available v)) ∧
    (∀ i, h2.size ≤ i → i < h2.cap → h2.data[i]? = some Item.Empty) ∧
    (0 < h2.size → ∀ i, i < h2.size → ∀ v w,
      h2.data[i]? = some (Item.Available v) →
      h2.data[0]? = some (Item.Available w) → v ≤ w) ∧
    (∀ i, 0 < i → i < h2.size → ∀ v w,
      h2.data[i]? = some (Item.Available v) →
      h2.data[parent i]? = some (Item.Available w) → v ≤ w) := by
  obtain ⟨ha0, hh0, hc0, hs0⟩ := new_absR cap h0 hnew
  obtain ⟨h2b, l2, outs2, hrun2, hcap2, ha2, hh2, hperm⟩ :=
    run_spec ops h0 [] ha0 hh0 (by rw [hc0, hs0]; simpa using hso)
  rw [hrun] at hrun2
  have hpair := Option.some.inj hrun2
  have hh2e : h2 = h2b := congrArg Prod.fst hpair
  have houte : outs = outs2 := congrArg Prod.snd hpair
  subst hh2e
  subst houte
  obtain ⟨hd2, hsz2, hlc2⟩ := ha2
  refine ⟨?_, ?_, ?_, ?_⟩
  · intro i hi
    rw [hsz2] at hi
    rw [hd2, avail_getElem?_lt l2 h2.cap i hi]
    exact ⟨l2.getD i 0, rfl⟩
  · intro i hi hic
    rw [hsz2] at hi
    rw [hd2]
    exact avail_getElem?_ge l2 h2.cap i hi hic
  · intro hpos i hi v w hv hw
    rw [hsz2] at hi
    rw [hd2, avail_getElem?_lt l2 h2.cap i hi] at hv
    rw [hd2, avail_getElem?_lt l2 h2.cap 0 (by rw [hsz2] at hpos; omega)] at hw
    have hv2 : l2.getD i 0 = v := Item.Available.inj (Option.some.inj hv)
    have hw2 : l2.getD 0 0 = w := Item.Available.inj (Option.some.inj hw)
    rw [← hv2, ← hw2]
    exact isHeap_root_max l2 hh2 i hi
  · intro i hi0 hi v w hv hw
    rw [hsz2] at hi
    have hpi : parent i < l2.length := lt_trans (parent_lt i hi0) hi
    rw [hd2, avail_getElem?_lt l2 h2.cap i hi] at hv
    rw [hd2, avail_getElem?_lt l2 h2.cap (parent i) hpi] at hw
    have hv2 : l2.getD i 0 = v := Item.Available.inj (Option.some.inj hv)
    have hw2 : l2.getD (parent i) 0 = w := Item.Available.inj (Option.some.inj hw)
    rw [← hv2, ← hw2]
    exact hh2 i hi0 hi

/-- C3 witness. -/
theorem claim3_witness :
    (∀ i, i < (⟨2, [Item.Available 2, Item.Empty], 1⟩ : Heap).size →
      ∃ v, (⟨2, [Item.Available 2, Item.Empty], 1⟩ : Heap).data[i]?
        = some (Item.Available v)) ∧
    (∀ i, (⟨2, [Item.Available 2, Item.Empty], 1⟩ : Heap).size ≤ i →
      i < (⟨2, [Item.Available 2, Item.Empty], 1⟩ : Heap).cap →
      (⟨2, [Item.Available 2, Item.Empty], 1⟩ : Heap).data[i]? = some Item.Empty) ∧
    (0 < (⟨2, [Item.Available 2, Item.Empty], 1⟩ : Heap).size →
      ∀ i, i < (⟨2, [Item.Available 2, Item.Empty], 1⟩ : Heap).size → ∀ v w,
      (⟨2, [Item.Available 2, Item.Empty], 1⟩ : Heap).data[i]?
        = some (Item.Available v) →
      (⟨2, [Item.Available 2, Item.Empty], 1⟩ : Heap).data[0]?
        = some (Item.Available w) → v ≤ w) ∧
    (∀ i, 0 < i → i < (⟨2, [Item.Available 2, Item.Empty], 1⟩ : Heap).size → ∀ v w,
      (⟨2, [Item.Available 2, Item.Empty], 1⟩ : Heap).data[i]?
        = some (Item.Available v) →
      (⟨2, [Item.Available 2, Item.Empty], 1⟩ : Heap).data[parent i]?
        = some (Item.Available w) → v ≤ w) :=
  claim3_invariant 2 [Op.push 5, Op.push 2, Op.pop] ⟨2, List.replicate 2 Item.Empty, 0⟩
    ⟨2, [Item.Available 2, Item.Empty], 1⟩ [5] (by decide) (by decide) (by decide)

/-- C4: after pushing `N, N-1, ..., 1` into a heap of capacity `N`, slot `i`
holds `Available(N - i)`; then `k` pops (for any `k ≤ N`) return
`N, N-1, ..., N-k+1` and leave slots `[0, N-k)` all `Available`. -/
theorem claim4_descending (N : Nat) (hN : 0 < N) :
    ∃ h0 hfull, Heap.new N = some h0 ∧ pushAll h0 (descList N N) = some hfull ∧
      (∀ i, i < N → hfull.data[i]? = some (Item.Available (N - i))) ∧
      (∀ k, k ≤ N → ∃ hk, popk k hfull
          = some ((List.range k).map (fun i => N - i), hk) ∧
        ∀ i, i < N - k → ∃ v, hk.data[i]? = some (Item.Available v)) := by
  have hnew : Heap.new N = some ⟨N, List.replicate N Item.Empty, 0⟩ := by
    unfold Heap.new
    rw [if_neg (by omega)]
  have hrepl : (⟨N, List.replicate N Item.Empty, 0⟩ : Heap)
      = ⟨N, avail (descList N 0) N, 0⟩ := by
    have hav : avail (descList N 0) N = List.replicate N Item.Empty := by
      simp [avail, descList]
    rw [hav]
  have hvals : descList N N = (List.range N).map (fun i => N - (0 + i)) := by
    unfold descList
    refine List.map_congr_left ?_
    intro i hi
    omega
  have hpush : pushAll ⟨N, List.replicate N Item.Empty, 0⟩ (descList N N)
      = some ⟨N, avail (descList N N) N, N⟩ := by
    rw [hrepl]
    conv_lhs => rw [hvals]
    exact pushAll_descList N N 0 (by omega)
  refine ⟨_, ⟨N, avail (descList N N) N, N⟩, hnew, hpush, ?_, ?_⟩
  · intro i hi
    show (avail (descList N N) N)[i]? = some (Item.Available (N - i))
    rw [avail_getElem?_lt (descList N N) N i (by rw [descList_length]; omega),
      descList_getD N N i hi]
  · intro k hk
    have habs : absR ⟨N, avail (descList N N) N, N⟩ (descList N N) := by
      refine ⟨rfl, ?_, ?_⟩
      · show N = (descList N N).length
        rw [descList_length]
      · rw [descList_length]
    obtain ⟨h2, l2, hpk, hcap2, ha2, hh2, hperm2⟩ :=
      popk_desc k N ⟨N, avail (descList N N) N, N⟩ (descList N N) habs
        (isHeap_descList N N) (List.Perm.refl _) hk
    refine ⟨h2, hpk, ?_⟩
    intro i hi
    have hlen2 : l2.length = N - k := by
      rw [hperm2.length_eq, descList_length]
    rw [ha2.1, avail_getElem?_lt l2 h2.cap i (by omega)]
    exact ⟨l2.getD i 0, rfl⟩

/-- C4 witness. -/
theorem claim4_witness :
    ∃ h0 hfull, Heap.new 3 = some h0 ∧ pushAll h0 (descList 3 3) = some hfull ∧
      (∀ i, i < 3 → hfull.data[i]? = some (Item.Available (3 - i))) ∧
      (∀ k, k ≤ 3 → ∃ hk, popk k hfull
          = some ((List.range k).map (fun i => 3 - i), hk) ∧
        ∀ i, i < 3 - k → ∃ v, hk.data[i]? = some (Item.Available v)) :=
  claim4_descending 3 (by decide)

/-- C6: the branching parent formula equals `(i-1)/2` and is strictly
decreasing. -/
theorem claim6_parent (i : Nat) (hi : 0 < i) :
    parent i = (i - 1) / 2 ∧ parent i < i :=
  ⟨parent_eq_sub_div i hi, parent_lt i hi⟩

/-- C6 witness. -/
theorem claim6_witness : parent 5 = (5 - 1) / 2 ∧ parent 5 < 5 :=
  claim6_parent 5 (by decide)

/-- C7: `take_val` empties an `Available` or `InProgress` slot and returns its
value, and aborts on `Empty`; `make_available` turns `InProgress(v, _)` into
`Available(v)` and aborts on `Empty` or `Available`. -/
theorem claim7_take_make :
    (∀ v, Item.take_val (Item.Available v) = some (v, Item.Empty)) ∧
    (∀ v o, Item.take_val (Item.InProgress v o) = some (v, Item.Empty)) ∧
    Item.take_val Item.Empty = none ∧
    (∀ v o, Item.make_available (Item.InProgress v o) = some (Item.Available v)) ∧
    Item.make_available Item.Empty = none ∧
    (∀ v, Item.make_available (Item.Available v) = none) :=
  ⟨fun _ => rfl, fun _ _ => rfl, rfl, fun _ _ => rfl, rfl, fun _ => rfl⟩

/-- C8: `new(cap)` with `cap ≥ 1` yields a heap with exactly `cap` slots, all
`Empty`, and size 0; `new(0)` aborts. -/
theorem claim8_new :
    Heap.new 0 = none ∧
    ∀ cap, 0 < cap → ∃ h, Heap.new cap = some h ∧ h.cap = cap ∧ h.size = 0 ∧
      h.data.length = cap ∧ ∀ i, i < cap → h.data[i]? = some Item.Empty := by
  constructor
  · rfl
  · intro cap hcap
    refine ⟨⟨cap, List.replicate cap Item.Empty, 0⟩, ?_, rfl, rfl, by simp, ?_⟩
    · unfold Heap.new
      rw [if_neg (by omega)]
    · intro i hi
      show (List.replicate cap Item.Empty)[i]? = some Item.Empty
      rw [List.getElem?_replicate, if_pos hi]

/-- C8 witness. -/
theorem claim8_witness :
    Heap.new 0 = none ∧
    ∃ h, Heap.new 3 = some h ∧ h.cap = 3 ∧ h.size = 0 ∧ h.data.length = 3 ∧
      ∀ i, i < 3 → h.data[i]? = some Item.Empty :=
  ⟨claim8_new.1, claim8_new.2 3 (by decide)⟩

/-- C5: in pop's sift-down, the right child is selected only when its value
is strictly greater than the left child's (ties choose the left); a swap
happens only when the chosen child's value is strictly greater than the
current slot's (on equality the sift stops); and an `Empty` left child stops
the sift regardless of the right child's contents. -/
theorem claim5_tiebreak :
    (∀ (left : Nat) (ls rs : Item) (lv rv : Nat), ls.get_val = some lv →
      rs.get_val = some rv →
      pickChild left ls (some rs)
        = if lv < rv then some (left + 1, rs) else some (left, ls)) ∧
    (∀ (cap fuel curr : Nat) (data : List Item) (leftSlot rs : Item)
      (ci : Nat) (childSlot currSlot : Item) (cv curv : Nat),
      2 * curr + 1 < cap → 2 * curr + 2 < cap →
      data[2 * curr + 1]? = some leftSlot → data[2 * curr + 2]? = some rs →
      pickChild (2 * curr + 1) leftSlot (some rs) = some (ci, childSlot) →
      childSlot.get_val = some cv → data[curr]? = some currSlot →
      currSlot.get_val = some curv → cv ≤ curv →
      siftDown cap (fuel + 1) curr data = some data) ∧
    (∀ (cap fuel curr : Nat) (data : List Item) (leftSlot : Item)
      (ci : Nat) (childSlot currSlot : Item) (cv curv : Nat),
      2 * curr + 1 < cap → cap ≤ 2 * curr + 2 →
      data[2 * curr + 1]? = some leftSlot →
      pickChild (2 * curr + 1) leftSlot none = some (ci, childSlot) →
      childSlot.get_val = some cv → data[curr]? = some currSlot →
      currSlot.get_val = some curv → cv ≤ curv →
      siftDown cap (fuel + 1) curr data = some data) ∧
    (∀ (cap fuel curr : Nat) (data : List Item),
      2 * curr + 1 < cap → data.length = cap →
      data[2 * curr + 1]? = some Item.Empty →
      siftDown cap (fuel + 1) curr data = some data) := by
  refine ⟨?_, ?_, ?_, ?_⟩
  · intro left ls rs lv rv hlv hrv
    simp only [pickChild, hlv, hrv]
  · intro cap fuel curr data leftSlot rs ci childSlot currSlot cv curv
      h1 h2 hleft hrig hpick hcv hcur hcurv hle
    have h2b : 2 * curr + 1 + 1 < cap := by omega
    have hrig2 : data[2 * curr + 1 + 1]? = some rs := by
      rw [show 2 * curr + 1 + 1 = 2 * curr + 2 by omega]
      exact hrig
    simp only [siftDown, if_pos h1, if_pos h2b, hleft, hrig2, hpick, hcv, hcur,
      hcurv, if_neg (show ¬ curv < cv by omega)]
  · intro cap fuel curr data leftSlot ci childSlot currSlot cv curv
      h1 h2 hleft hpick hcv hcur hcurv hle
    have h2b : ¬ 2 * curr + 1 + 1 < cap := by omega
    simp only [siftDown, if_pos h1, if_neg h2b, hleft, hpick, hcv, hcur,
      hcurv, if_neg (show ¬ curv < cv by omega)]
  · intro cap fuel curr data h1 hlen hleft
    by_cases h2 : 2 * curr + 1 + 1 < cap
    · have hrs : ∃ rs, data[2 * curr + 1 + 1]? = some rs := by
        rw [List.getElem?_eq_getElem (by omega)]
        exact ⟨_, rfl⟩
      obtain ⟨rs, hrs⟩ := hrs
      simp only [siftDown, if_pos h1, if_pos h2, hleft, hrs, pickChild, Item.get_val]
    · simp only [siftDown, if_pos h1, if_neg h2, hleft, pickChild, Item.get_val]

/-- C5 witness. -/
theorem claim5_witness :
    pickChild 1 (Item.Available 4) (some (Item.Available 4))
      = (if (4 : Nat) < 4 then some (1 + 1, Item.Available 4)
          else some (1, Item.Available 4)) ∧
    siftDown 3 (0 + 1) 0 [Item.Available 5, Item.Available 5, Item.Available 4]
      = some [Item.Available 5, Item.Available 5, Item.Available 4] ∧
    siftDown 2 (0 + 1) 0 [Item.Available 3, Item.Available 2]
      = some [Item.Available 3, Item.Available 2] ∧
    siftDown 3 (0 + 1) 0 [Item.Available 1, Item.Empty, Item.Available 9]
      = some [Item.Available 1, Item.Empty, Item.Available 9] :=
  ⟨claim5_tiebreak.1 1 (Item.Available 4) (Item.Available 4) 4 4 (by decide)
     (by decide),
   claim5_tiebreak.2.1 3 0 0 [Item.Available 5, Item.Available 5, Item.Available 4]
     (Item.Available 5) (Item.Available 4) 1 (Item.Available 5) (Item.Available 5)
     5 5 (by decide) (by decide) (by decide) (by decide) (by decide) (by decide)
     (by decide) (by decide) (by decide),
   claim5_tiebreak.2.2.1 2 0 0 [Item.Available 3, Item.Available 2]
     (Item.Available 2) 1 (Item.Available 2) (Item.Available 3) 2 3 (by decide)
     (by decide) (by decide) (by decide) (by decide) (by decide) (by decide)
     (by decide),
   claim5_tiebreak.2.2.2 3 0 0 [Item.Available 1, Item.Empty, Item.Available 9]
     (by decide) (by decide) (by decide)⟩

/-- C9: the sift-up walk strictly decreases its position (`parent i < i`),
the sift-down walk strictly increases its position (`curr < 2*curr+1 < 2*curr+2`),
and under the preconditions `size < cap` (push) and `size > 0` (pop) on an
at-rest heap both sequential embeddings are total (return `some`). -/
theorem claim9_termination :
    (∀ i, 0 < i → parent i < i) ∧
    (∀ curr : Nat, curr < 2 * curr + 1 ∧ 2 * curr + 1 < 2 * curr + 2) ∧
    (∀ (h : Heap) (l : List Nat) (v : Nat), absR h l → isHeap l →
      h.size < h.cap → (Heap.push 0 h v).isSome) ∧
    (∀ (h : Heap) (l : List Nat), absR h l → isHeap l → 0 < h.size →
      (Heap.pop h).isSome) := by
  refine ⟨parent_lt, fun curr => ⟨by omega, by omega⟩, ?_, ?_⟩
  · intro h l v ha hh hc
    obtain ⟨hpush, _, _, _⟩ := push_spec 0 h l v ha hh hc
    rw [hpush]
    rfl
  · intro h l ha hh hs
    obtain ⟨l2, hpop, _⟩ := pop_spec h l ha hh hs
    rw [hpop]
    rfl

/-- C9 witness. -/
theorem claim9_witness :
    parent 6 < 6 ∧
    (Heap.push 0 ⟨1, [Item.Empty], 0⟩ 3).isSome ∧
    (Heap.pop ⟨1, [Item.Available 7], 1⟩).isSome :=
  ⟨claim9_termination.1 6 (by decide),
   claim9_termination.2.2.1 ⟨1, [Item.Empty], 0⟩ [] 3
     ⟨by decide, rfl, by decide⟩ (by intro i h1 h2; simp at h2) (by decide),
   claim9_termination.2.2.2 ⟨1, [Item.Available 7], 1⟩ [7]
     ⟨by decide, rfl, by decide⟩ (by intro i h1 h2; simp at h2; omega) (by decide)⟩

/-- C10: a disciplined single-threaded run from `new(cap)` never panics: every
slot access is in bounds, push's `Empty` assertion holds, the `unreachable`
branches of `take_val`/`make_available` are never taken, and the `unwrap` in
sift-down always succeeds — the whole run evaluates to `some`. -/
theorem claim10_no_panic (cap : Nat) (ops : List Op) (h0 : Heap)
    (hnew : Heap.new cap = some h0) (hso : sizesOk cap 0 ops) :
    (run h0 ops).isSome := by
  obtain ⟨ha0, hh0, hc0, hs0⟩ := new_absR cap h0 hnew
  obtain ⟨h2, l2, outs, hrun, _, _, _, _⟩ :=
    run_spec ops h0 [] ha0 hh0 (by rw [hc0, hs0]; simpa using hso)
  rw [hrun]
  rfl

/-- C10 witness. -/
theorem claim10_witness :
    (run ⟨2, List.replicate 2 Item.Empty, 0⟩
      [Op.push 5, Op.pop, Op.push 3, Op.push 4, Op.pop, Op.pop]).isSome :=
  claim10_no_panic 2 [Op.push 5, Op.pop, Op.push 3, Op.push 4, Op.pop, Op.pop]
    ⟨2, List.replicate 2 Item.Empty, 0⟩ (by decide) (by decide)
